import Mathlib

/-!
# LinuxCircusTailorConfig

A shallow embedding of `models/circus_tailor_config.go` (package `models`) and of
the parts of the Go standard library it calls (`flag`, `strings`, `path`,
`crypto/md5`, `fmt`), followed by theorems about `Script`, `Validate` and the
accessors.

Conventions of the embedding.

* A Go `string` is a Lean `String`.  Where Go works on the bytes of a string
  (ordering, hashing) the UTF-8 bytes are taken with `bytes`.
* A Go `*string` is a `Ref` into an explicit `Heap` of string cells; the six
  pointers returned by `flagSet.String` are shared between the flag set, the
  `values` map and the six pointer fields of the struct, exactly as in the source.
* A Go `map[string]T` is an association list with distinct keys; only lookups and
  the sorted traversal of `VisitAll` are ever performed on it.
* A function that can panic in Go returns `Option`, `none` standing for the panic.
* A Go `error` is `Option String`: `none` is `nil`, `some msg` an error whose
  `Error()` text is `msg`.
-/

namespace Models

/-! ## Strings -/

/-- The UTF-8 bytes of a string, as numbers below 256: Go's `[]byte(s)`. -/
def bytes (s : String) : List Nat :=
  s.data.flatMap fun c => (String.utf8EncodeChar c).map UInt8.toNat

/-- Lexicographic comparison of byte sequences. -/
def bytesLess : List Nat → List Nat → Bool
  | [], [] => false
  | [], _ :: _ => true
  | _ :: _, [] => false
  | x :: xs, y :: ys => if x < y then true else if y < x then false else bytesLess xs ys

/-- Go's `a < b` on strings: bytewise lexicographic order. -/
def stringLess (a b : String) : Bool :=
  bytesLess (bytes a) (bytes b)

/-- Go's `error` interface value: `none` is `nil`. -/
abbrev error := Option String

end Models

namespace strings

/-- Go's `strings.Join(a, sep)`: the elements of `a` with `sep` between
consecutive elements; `""` for the empty slice. -/
def Join : List String → String → String
  | [], _ => ""
  | [a], _ => a
  | a :: b :: rest, sep => a ++ sep ++ Join (b :: rest) sep

end strings

namespace sort

/-- Insertion of a string into a list sorted by `Models.stringLess`. -/
def insert (x : String) : List String → List String
  | [] => [x]
  | y :: ys => if Models.stringLess y x then y :: insert x ys else x :: y :: ys

/-- Go's `sort.Strings`: the strings in increasing byte order.  (On the distinct
keys of a map every sorting algorithm returns the same list.) -/
def Strings : List String → List String
  | [] => []
  | x :: xs => insert x (Strings xs)

end sort

namespace Models

/-! ## Heap of string cells -/

/-- A non-nil `*string`. -/
abbrev Ref := Nat

/-- The string cells allocated so far; cell `p` is the `p`-th element. -/
abbrev Heap := List String

/-- Go's `new(string)` followed by `*p = v`. -/
def Heap.new (h : Heap) (v : String) : Ref × Heap :=
  (h.length, h ++ [v])

/-- Go's `*p`; `none` when `p` is not a cell of the heap. -/
def Heap.load (h : Heap) (p : Ref) : Option String :=
  h[p]?

/-- Go's `*p = v`. -/
def Heap.store (h : Heap) (p : Ref) (v : String) : Heap :=
  h.set p v

end Models

namespace flag

open Models

/-- Go's `flag.ErrorHandling`. -/
inductive ErrorHandling where
  | ContinueOnError
  | ExitOnError
  | PanicOnError
  deriving DecidableEq, Repr

/-- Go's `flag.Flag`.  Every flag of this program is a string flag, so `Value` is
the `*string` behind its `stringValue`. -/
structure Flag where
  Name : String
  Usage : String
  Value : Ref
  DefValue : String
  deriving DecidableEq, Repr

/-- Go's `flag.FlagSet`: its name, its error handling and the map `formal` of the
defined flags.  (The map `actual` of the flags that were set is written by `Set`
and `Parse` but read by nothing this program calls, and is left out.) -/
structure FlagSet where
  name : String
  errorHandling : ErrorHandling
  formal : List (String × Flag)
  deriving DecidableEq, Repr

/-- Go's `flag.NewFlagSet`. -/
def NewFlagSet (name : String) (errorHandling : ErrorHandling) : FlagSet :=
  { name := name, errorHandling := errorHandling, formal := [] }

/-- Go's `(*FlagSet).Var` for a string value: records the default, panics
(`none`) when the name is already defined, otherwise adds the flag to `formal`.
(Later Go releases also panic on a name that starts with `-` or contains `=`; none
of the names of this program does.) -/
def FlagSet.Var (f : FlagSet) (value : Ref) (name usage : String) (h : Heap) :
    Option FlagSet :=
  match h.load value with
  | none => none
  | some defValue =>
    match f.formal.lookup name with
    | some _ => none
    | none =>
      some { f with formal := f.formal ++ [(name, { Name := name, Usage := usage,
                                                    Value := value, DefValue := defValue })] }

/-- Go's `sortFlags`: the flags of the map ordered by name, the names sorted
with `sort.Strings`. -/
def sortFlags (flags : List (String × Flag)) : List Flag :=
  (sort.Strings (flags.map Prod.fst)).filterMap fun name => flags.lookup name

/-- Go's `(*FlagSet).VisitAll(fn)`: calls `fn` on every defined flag, in the
order of `sortFlags`.  The closure `fn` updates the variables it captured, here the
state `σ`, and may panic. -/
def FlagSet.VisitAll {σ : Type} (f : FlagSet) (fn : σ → Flag → Option σ) (init : σ) :
    Option σ :=
  (sortFlags f.formal).foldlM fn init

/-- Go's `(*FlagSet).Set(name, value)`: an error when no such flag is defined,
otherwise the value is written through the flag's cell. -/
def FlagSet.Set (f : FlagSet) (name value : String) (h : Heap) : error × Heap :=
  match f.formal.lookup name with
  | none => (some ("no such flag -" ++ name), h)
  | some flag => (none, h.store flag.Value value)

/-- Go's `(*FlagSet).String(name, value, usage)`: allocates a fresh cell holding
the default `value`, defines the flag over it and returns the cell. -/
def FlagSet.String (f : FlagSet) (name value usage : String) (h : Heap) :
    Option (Ref × FlagSet × Heap) :=
  let (p, h1) := h.new value
  match f.Var p name usage h1 with
  | none => none
  | some f1 => some (p, f1, h1)

end flag

namespace path

/-- The inner loop of the `..` case of `Clean`, on the write index `w` of the
buffer `out`: `for out.w > dotdot && out.index(out.w) != '/' { out.w-- }`. -/
def backupLoop (out : List Char) (dotdot : Nat) : Nat → Nat
  | 0 => 0
  | w + 1 =>
    if dotdot < w + 1 ∧ out.getD (w + 1) '/' ≠ '/' then backupLoop out dotdot w else w + 1

/-- The `..` case of `Clean` when `out.w > dotdot`: `out.w--`, then the inner
loop; the buffer is cut at the new write index. -/
def backup (out : List Char) (dotdot : Nat) : List Char :=
  out.take (backupLoop out dotdot (out.length - 1))

/-- One iteration of the main loop `for r < n` of `Clean`, entered with
`path[r:] = c :: t`, the buffer contents `out` (`out.w` is its length) and
`dotdot`: it returns the unread input, the buffer and `dotdot` after the
iteration. -/
def cleanStep (rooted : Bool) (c : Char) (t : List Char) (out : List Char) (dotdot : Nat) :
    List Char × List Char × Nat :=
  if c = '/' then
    -- empty path element
    (t, out, dotdot)
  else if c = '.' ∧ (t = [] ∨ t.head? = some '/') then
    -- . element
    (t, out, dotdot)
  else if c = '.' ∧ t.head? = some '.' ∧ (t.tail = [] ∨ t.tail.head? = some '/') then
    -- .. element: remove to last /
    if dotdot < out.length then
      (t.tail, backup out dotdot, dotdot)
    else if !rooted then
      -- cannot backup, but not rooted, so append .. element
      let out1 := if 0 < out.length then out ++ ['/'] else out
      let out2 := out1 ++ ['.', '.']
      (t.tail, out2, out2.length)
    else
      (t.tail, out, dotdot)
  else
    -- real path element: add slash if needed, then copy the element
    let out1 :=
      if (rooted ∧ out.length ≠ 1) ∨ (¬ rooted ∧ out.length ≠ 0) then out ++ ['/'] else out
    ((c :: t).dropWhile (fun x => x ≠ '/'), out1 ++ (c :: t).takeWhile (fun x => x ≠ '/'), dotdot)

/-- The main loop `for r < n` of `Clean`.  `rest` is `path[r:]`, and the first
argument bounds the number of iterations; every iteration consumes at least one
byte of `rest`, so `rest.length` iterations always suffice. -/
def cleanLoop (rooted : Bool) : Nat → List Char → List Char → Nat → List Char
  | 0, _, out, _ => out
  | _ + 1, [], out, _ => out
  | fuel + 1, c :: t, out, dotdot =>
    let st := cleanStep rooted c t out dotdot
    cleanLoop rooted fuel st.1 st.2.1 st.2.2

/-- Go's `path.Clean`. -/
def Clean (path : String) : String :=
  if path = "" then "."
  else
    let rooted : Bool := path.data.head? = some '/'
    let out :=
      if rooted then cleanLoop rooted path.data.length (path.data.drop 1) ['/'] 1
      else cleanLoop rooted path.data.length path.data [] 0
    if out.length = 0 then "." else String.mk out

/-- Go's `path.Join(elem...)`: empty leading elements are skipped, the others are
joined with `/` and the result is cleaned; `""` when every element is empty. -/
def Join : List String → String
  | [] => ""
  | e :: rest => if e ≠ "" then Clean (strings.Join (e :: rest) "/") else Join rest

end path

namespace md5

/-- The per-round left-rotation amounts of MD5 (RFC 1321). -/
def shifts : List Nat :=
  [7, 12, 17, 22, 7, 12, 17, 22, 7, 12, 17, 22, 7, 12, 17, 22,
   5, 9, 14, 20, 5, 9, 14, 20, 5, 9, 14, 20, 5, 9, 14, 20,
   4, 11, 16, 23, 4, 11, 16, 23, 4, 11, 16, 23, 4, 11, 16, 23,
   6, 10, 15, 21, 6, 10, 15, 21, 6, 10, 15, 21, 6, 10, 15, 21]

/-- The sine table of MD5 (RFC 1321): entry `i` is `floor (2^32 * |sin (i + 1)|)`. -/
def table : List Nat :=
  [0xd76aa478, 0xe8c7b756, 0x242070db, 0xc1bdceee, 0xf57c0faf, 0x4787c62a, 0xa8304613, 0xfd469501,
   0x698098d8, 0x8b44f7af, 0xffff5bb1, 0x895cd7be, 0x6b901122, 0xfd987193, 0xa679438e, 0x49b40821,
   0xf61e2562, 0xc040b340, 0x265e5a51, 0xe9b6c7aa, 0xd62f105d, 0x02441453, 0xd8a1e681, 0xe7d3fbc8,
   0x21e1cde6, 0xc33707d6, 0xf4d50d87, 0x455a14ed, 0xa9e3e905, 0xfcefa3f8, 0x676f02d9, 0x8d2a4c8a,
   0xfffa3942, 0x8771f681, 0x6d9d6122, 0xfde5380c, 0xa4beea44, 0x4bdecfa9, 0xf6bb4b60, 0xbebfbc70,
   0x289b7ec6, 0xeaa127fa, 0xd4ef3085, 0x04881d05, 0xd9d4d039, 0xe6db99e5, 0x1fa27cf8, 0xc4ac5665,
   0xf4292244, 0x432aff97, 0xab9423a7, 0xfc93a039, 0x655b59c3, 0x8f0ccc92, 0xffeff47d, 0x85845dd1,
   0x6fa87e4f, 0xfe2ce6e0, 0xa3014314, 0x4e0811a1, 0xf7537e82, 0xbd3af235, 0x2ad7d2bb, 0xeb86d391]

/-- A 32-bit word rotated left by `n` bits (`0 < n < 32`). -/
def rotl (x n : Nat) : Nat :=
  ((x <<< n) ||| (x >>> (32 - n))) % 2 ^ 32

/-- Bitwise complement of a 32-bit word. -/
def not32 (x : Nat) : Nat :=
  x ^^^ 0xffffffff

/-- The chaining state of MD5: four 32-bit words. -/
structure Digest where
  a : Nat
  b : Nat
  c : Nat
  d : Nat
  deriving DecidableEq, Repr

/-- Round `i` (`0 ≤ i < 64`) of the MD5 compression function on the sixteen
message words `m`. -/
def round (m : List Nat) (s : Digest) (i : Nat) : Digest :=
  let f :=
    if i < 16 then (s.b &&& s.c) ||| (not32 s.b &&& s.d)
    else if i < 32 then (s.d &&& s.b) ||| (not32 s.d &&& s.c)
    else if i < 48 then s.b ^^^ s.c ^^^ s.d
    else s.c ^^^ (s.b ||| not32 s.d)
  let g :=
    if i < 16 then i
    else if i < 32 then (5 * i + 1) % 16
    else if i < 48 then (3 * i + 5) % 16
    else (7 * i) % 16
  let x := (f + s.a + table.getD i 0 + m.getD g 0) % 2 ^ 32
  { a := s.d, d := s.c, c := s.b, b := (s.b + rotl x (shifts.getD i 0)) % 2 ^ 32 }

/-- The little-endian 32-bit word made of four bytes. -/
def word (bs : List Nat) : Nat :=
  bs.getD 0 0 + bs.getD 1 0 * 2 ^ 8 + bs.getD 2 0 * 2 ^ 16 + bs.getD 3 0 * 2 ^ 24

/-- The sixteen little-endian words of a 64-byte block. -/
def words (p : List Nat) : List Nat :=
  (List.range 16).map fun j => word ((p.drop (4 * j)).take 4)

/-- One application of the compression function: the 64 rounds on a block,
then the addition of the previous state. -/
def block (s : Digest) (p : List Nat) : Digest :=
  let r := (List.range 64).foldl (round (words p)) s
  { a := (s.a + r.a) % 2 ^ 32, b := (s.b + r.b) % 2 ^ 32,
    c := (s.c + r.c) % 2 ^ 32, d := (s.d + r.d) % 2 ^ 32 }

/-- The `n` consecutive 64-byte blocks of `p`. -/
def blocks : Nat → List Nat → List (List Nat)
  | 0, _ => []
  | n + 1, p => p.take 64 :: blocks n (p.drop 64)

/-- The little-endian bytes of a number, `n` of them. -/
def littleEndian : Nat → Nat → List Nat
  | 0, _ => []
  | n + 1, x => x % 256 :: littleEndian n (x / 256)

/-- The MD5 padding: a `0x80` byte, zero bytes up to 56 modulo 64, and the bit
length of the message as eight little-endian bytes. -/
def pad (data : List Nat) : List Nat :=
  data ++ [0x80] ++ List.replicate ((119 - data.length % 64) % 64) 0
    ++ littleEndian 8 ((8 * data.length) % 2 ^ 64)

/-- The initial chaining state of MD5. -/
def init : Digest :=
  { a := 0x67452301, b := 0xefcdab89, c := 0x98badcfe, d := 0x10325476 }

/-- Go's `md5.Sum(data)`: the sixteen bytes of the MD5 digest of `data`. -/
def Sum (data : List Nat) : List Nat :=
  let p := pad data
  let s := (blocks (p.length / 64) p).foldl block init
  littleEndian 4 s.a ++ littleEndian 4 s.b ++ littleEndian 4 s.c ++ littleEndian 4 s.d

end md5

namespace fmt

/-- The digits used by the verb `%x`. -/
def ldigits : List Char :=
  "0123456789abcdef".data

/-- The two lowercase hexadecimal digits of a byte. -/
def hexByte (b : Nat) : List Char :=
  [ldigits.getD (b / 16 % 16) '0', ldigits.getD (b % 16) '0']

/-- Go's `fmt.Sprintf("%x", b)` for a byte array `b`: two lowercase hexadecimal
digits per byte, no separator. -/
def SprintfHex (b : List Nat) : String :=
  String.mk (b.flatMap hexByte)

/-- Go's `fmt.Sprintf("-%s='%s'", name, value)`. -/
def SprintfFlag (name value : String) : String :=
  "-" ++ name ++ "='" ++ value ++ "'"

/-- Go's `fmt.Errorf("missing flags: %s", s)`. -/
def ErrorfMissingFlags (s : String) : Models.error :=
  some ("missing flags: " ++ s)

end fmt

namespace strings

/-- The loop of Go's `genSplit` for a non-empty separator: `cur` holds the bytes
of the piece being read, `rest` the unread input, and the first argument bounds the
number of iterations (`rest.length` always suffices). -/
def genSplit (sep : List Char) : Nat → List Char → List Char → List String
  | 0, rest, cur => [String.mk (cur ++ rest)]
  | fuel + 1, rest, cur =>
    match rest with
    | [] => [String.mk cur]
    | c :: t =>
      if sep.isPrefixOf rest then
        String.mk cur :: genSplit sep fuel (rest.drop sep.length) []
      else
        genSplit sep fuel t (cur ++ [c])

/-- Go's `strings.Split(s, sep)`: the pieces of `s` between the occurrences of
`sep`; with an empty `sep` the characters of `s`. -/
def Split (s sep : String) : List String :=
  if sep = "" then s.data.map fun c => String.mk [c]
  else genSplit sep.data s.data.length s.data []

end strings

namespace Models

/-! ## The configuration -/

/-- The struct `LinuxCircusTailorConfig`. -/
structure LinuxCircusTailorConfig where
  FlagSet : flag.FlagSet
  compilerPath : String
  values : List (String × Ref)
  appDir : Ref
  outputDropletDir : Ref
  outputMetadataDir : Ref
  buildpacksDir : Ref
  buildArtifactsCacheDir : Ref
  buildpackOrder : Ref
  deriving DecidableEq, Repr

/-! The flag names, the constants `LinuxCircusTailor…Flag`. -/

abbrev LinuxCircusTailorAppDirFlag : String := "appDir"
abbrev LinuxCircusTailorOutputDropletDirFlag : String := "outputDropletDir"
abbrev LinuxCircusTailorOutputMetadataDirFlag : String := "outputMetadataDir"
abbrev LinuxCircusTailorBuildpacksDirFlag : String := "buildpacksDir"
abbrev LinuxCircusTailorBuildArtifactsCacheDirFlag : String := "buildArtifactsCacheDir"
abbrev LinuxCircusTailorBuildpackOrderFlag : String := "buildpackOrder"

/-- The map `LinuxCircusTailorDefaults`. -/
def LinuxCircusTailorDefaults : List (String × String) :=
  [(LinuxCircusTailorAppDirFlag, "/app"),
   (LinuxCircusTailorOutputDropletDirFlag, "/tmp/droplet"),
   (LinuxCircusTailorOutputMetadataDirFlag, "/tmp/result"),
   (LinuxCircusTailorBuildpacksDirFlag, "/tmp/buildpacks"),
   (LinuxCircusTailorBuildArtifactsCacheDirFlag, "/tmp/cache")]

/-- Go's `m[key]` on a `map[string]string`: the zero value `""` for a missing key. -/
def mapIndex (m : List (String × String)) (key : String) : String :=
  (m.lookup key).getD ""

/-- The constructor `NewLinuxCircusTailorConfig(buildpacks)`, run on an empty heap:
it returns the struct and the heap holding the six cells it allocated. -/
def NewLinuxCircusTailorConfig (buildpacks : List String) :
    Option (LinuxCircusTailorConfig × Heap) := do
  let flagSet := flag.NewFlagSet "linux-smelter" flag.ErrorHandling.ExitOnError
  let h : Heap := []
  let (appDir, flagSet, h) ← flagSet.String
    LinuxCircusTailorAppDirFlag
    (mapIndex LinuxCircusTailorDefaults LinuxCircusTailorAppDirFlag)
    "directory containing raw app bits" h
  let (outputDropletDir, flagSet, h) ← flagSet.String
    LinuxCircusTailorOutputDropletDirFlag
    (mapIndex LinuxCircusTailorDefaults LinuxCircusTailorOutputDropletDirFlag)
    "directory in which to write the smelted app bits" h
  let (outputMetadataDir, flagSet, h) ← flagSet.String
    LinuxCircusTailorOutputMetadataDirFlag
    (mapIndex LinuxCircusTailorDefaults LinuxCircusTailorOutputMetadataDirFlag)
    "directory in which to place smelting result metadata" h
  let (buildpacksDir, flagSet, h) ← flagSet.String
    LinuxCircusTailorBuildpacksDirFlag
    (mapIndex LinuxCircusTailorDefaults LinuxCircusTailorBuildpacksDirFlag)
    "directory containing the buildpacks to try" h
  let (buildArtifactsCacheDir, flagSet, h) ← flagSet.String
    LinuxCircusTailorBuildArtifactsCacheDirFlag
    (mapIndex LinuxCircusTailorDefaults LinuxCircusTailorBuildArtifactsCacheDirFlag)
    "directory to store cached artifacts to buildpacks" h
  let (buildpackOrder, flagSet, h) ← flagSet.String
    LinuxCircusTailorBuildpackOrderFlag
    (strings.Join buildpacks ",")
    "comma-separated list of buildpacks, to be tried in order" h
  let compilerPath := "/tmp/compiler"
  pure
    ({ FlagSet := flagSet
       compilerPath := compilerPath
       appDir := appDir
       outputDropletDir := outputDropletDir
       outputMetadataDir := outputMetadataDir
       buildpacksDir := buildpacksDir
       buildArtifactsCacheDir := buildArtifactsCacheDir
       buildpackOrder := buildpackOrder
       values :=
         [(LinuxCircusTailorAppDirFlag, appDir),
          (LinuxCircusTailorOutputDropletDirFlag, outputDropletDir),
          (LinuxCircusTailorOutputMetadataDirFlag, outputMetadataDir),
          (LinuxCircusTailorBuildpacksDirFlag, buildpacksDir),
          (LinuxCircusTailorBuildArtifactsCacheDirFlag, buildArtifactsCacheDir),
          (LinuxCircusTailorBuildpackOrderFlag, buildpackOrder)] }, h)

namespace LinuxCircusTailorConfig

/-- The method `CompilerPath`. -/
def CompilerPath (s : LinuxCircusTailorConfig) : String :=
  s.compilerPath

/-- The method `compilerCommand`. -/
def compilerCommand (s : LinuxCircusTailorConfig) : String :=
  path.Join [s.CompilerPath, "run"]

/-- The method `Script`.  The closure passed to `VisitAll` appends one token to
`argv`; it panics when `s.values[flag.Name]` is nil. -/
def Script (s : LinuxCircusTailorConfig) (h : Heap) : Option String := do
  let argv ← s.FlagSet.VisitAll
    (fun argv flag => do
      let p ← s.values.lookup flag.Name
      let v ← h.load p
      pure (argv ++ [fmt.SprintfFlag flag.Name v]))
    [s.compilerCommand]
  pure (strings.Join argv " ")

/-- The method `Validate`.  The closure passed to `VisitAll` returns early when
the flag has no entry in `values` and otherwise appends the hyphen-prefixed name of
a flag whose value is empty to `missingFlags`. -/
def Validate (s : LinuxCircusTailorConfig) (h : Heap) : Option error := do
  let missingFlags ← s.FlagSet.VisitAll
    (fun missingFlags flag =>
      match s.values.lookup flag.Name with
      | none => pure missingFlags
      | some schemaFlag => do
        let value ← h.load schemaFlag
        if value = "" then pure (missingFlags ++ ["-" ++ flag.Name])
        else pure missingFlags)
    ([] : List String)
  if 0 < missingFlags.length then
    pure (fmt.ErrorfMissingFlags (strings.Join missingFlags ", "))
  else
    pure none

/-- The method `AppDir`. -/
def AppDir (s : LinuxCircusTailorConfig) (h : Heap) : Option String :=
  h.load s.appDir

/-- The method `BuildpacksDir`. -/
def BuildpacksDir (s : LinuxCircusTailorConfig) (h : Heap) : Option String :=
  h.load s.buildpacksDir

/-- The method `BuildpackPath`. -/
def BuildpackPath (s : LinuxCircusTailorConfig) (h : Heap) (buildpackName : String) :
    Option String := do
  let dir ← s.BuildpacksDir h
  pure (path.Join [dir, fmt.SprintfHex (md5.Sum (bytes buildpackName))])

/-- The method `BuildpackOrder`. -/
def BuildpackOrder (s : LinuxCircusTailorConfig) (h : Heap) : Option (List String) := do
  let v ← h.load s.buildpackOrder
  pure (strings.Split v ",")

/-- The method `BuildArtifactsCacheDir`. -/
def BuildArtifactsCacheDir (s : LinuxCircusTailorConfig) (h : Heap) : Option String :=
  h.load s.buildArtifactsCacheDir

/-- The method `OutputDropletDir`. -/
def OutputDropletDir (s : LinuxCircusTailorConfig) (h : Heap) : Option String :=
  h.load s.outputDropletDir

/-- The method `ResultJsonDir`. -/
def ResultJsonDir (s : LinuxCircusTailorConfig) (h : Heap) : Option String :=
  h.load s.outputMetadataDir

/-- The method `ResultJsonPath`. -/
def ResultJsonPath (s : LinuxCircusTailorConfig) (h : Heap) : Option String := do
  let dir ← s.ResultJsonDir h
  pure (path.Join [dir, "result.json"])

end LinuxCircusTailorConfig

/-! ## Overriding option values -/

/-- One value for each of the six options. -/
structure OptionValues where
  appDir : String
  outputDropletDir : String
  outputMetadataDir : String
  buildpacksDir : String
  buildArtifactsCacheDir : String
  buildpackOrder : String
  deriving DecidableEq, Repr

/-- A sequence of overrides `-name=value`, applied in order with `FlagSet.Set` as
an argument parser does; an override of an undefined name is rejected by `Set` and
leaves the heap as it was. -/
def override (s : LinuxCircusTailorConfig) (ops : List (String × String)) (h : Heap) : Heap :=
  ops.foldl (fun h op => (s.FlagSet.Set op.1 op.2 h).2) h

/-- The overrides that give every option the value `a` has for it. -/
def OptionValues.ops (a : OptionValues) : List (String × String) :=
  [(LinuxCircusTailorAppDirFlag, a.appDir),
   (LinuxCircusTailorOutputDropletDirFlag, a.outputDropletDir),
   (LinuxCircusTailorOutputMetadataDirFlag, a.outputMetadataDir),
   (LinuxCircusTailorBuildpacksDirFlag, a.buildpacksDir),
   (LinuxCircusTailorBuildArtifactsCacheDirFlag, a.buildArtifactsCacheDir),
   (LinuxCircusTailorBuildpackOrderFlag, a.buildpackOrder)]

/-- The heap after every option of `s` was set to its value in `a`. -/
def assign (s : LinuxCircusTailorConfig) (a : OptionValues) (h : Heap) : Heap :=
  override s a.ops h

end Models

namespace path

/-! ## Path elements -/

/-- A path element that `Clean` copies to its output: non-empty, without `/`, and
neither `.` nor `..`. -/
def isElement (e : List Char) : Prop :=
  e ≠ [] ∧ '/' ∉ e ∧ e ≠ ['.'] ∧ e ≠ ['.', '.']

/-- The buffer after the separator that `Clean` writes before a real path
element. -/
def slashIfNeeded (rooted : Bool) (out : List Char) : List Char :=
  if (rooted ∧ out.length ≠ 1) ∨ (¬ rooted ∧ out.length ≠ 0) then out ++ ['/'] else out

/-- The buffer and `dotdot` after a `..` element. -/
def dotdotState (rooted : Bool) (out : List Char) (dotdot : Nat) : List Char × Nat :=
  if dotdot < out.length then (backup out dotdot, dotdot)
  else if !rooted then
    ((if 0 < out.length then out ++ ['/'] else out) ++ ['.', '.'],
     ((if 0 < out.length then out ++ ['/'] else out) ++ ['.', '.']).length)
  else (out, dotdot)

/-- A directory written as one or more path elements separated by single
slashes, with or without one leading slash: `tmp/buildpacks`, `/tmp/buildpacks`. -/
def isPlainDir (d : String) : Prop :=
  ∃ segs : List String, segs ≠ [] ∧ (∀ s ∈ segs, isElement s.data) ∧
    (d = strings.Join segs "/" ∨ d = "/" ++ strings.Join segs "/")

end path

namespace Models

/-! ## Definitions used to state the theorems -/

/-- Go's `*s.values[name]`: the current value of the option `name` in the
name-indexed store; `none` when the map has no cell for `name`. -/
def LinuxCircusTailorConfig.valueOf (s : LinuxCircusTailorConfig) (h : Heap) (name : String) :
    Option String :=
  (s.values.lookup name).bind h.load

/-- The six option names in the order in which the constructor defines them. -/
def definitionOrder : List String :=
  ["appDir", "outputDropletDir", "outputMetadataDir", "buildpacksDir",
   "buildArtifactsCacheDir", "buildpackOrder"]

/-- The six option names in increasing byte order, the order of `sortFlags`. -/
def sortedOrder : List String :=
  ["appDir", "buildArtifactsCacheDir", "buildpackOrder", "buildpacksDir",
   "outputDropletDir", "outputMetadataDir"]

/-- The value an assignment gives to the option called `name` (`""` for a name
that is not an option). -/
def OptionValues.get (a : OptionValues) (name : String) : String :=
  if name = "appDir" then a.appDir
  else if name = "outputDropletDir" then a.outputDropletDir
  else if name = "outputMetadataDir" then a.outputMetadataDir
  else if name = "buildpacksDir" then a.buildpacksDir
  else if name = "buildArtifactsCacheDir" then a.buildArtifactsCacheDir
  else if name = "buildpackOrder" then a.buildpackOrder
  else ""

/-- The assignment in which the option called `name` has the value `v` and the
other options the value they have in `a`. -/
def OptionValues.update (a : OptionValues) (name v : String) : OptionValues :=
  { appDir := if name = "appDir" then v else a.appDir
    outputDropletDir := if name = "outputDropletDir" then v else a.outputDropletDir
    outputMetadataDir := if name = "outputMetadataDir" then v else a.outputMetadataDir
    buildpacksDir := if name = "buildpacksDir" then v else a.buildpacksDir
    buildArtifactsCacheDir :=
      if name = "buildArtifactsCacheDir" then v else a.buildArtifactsCacheDir
    buildpackOrder := if name = "buildpackOrder" then v else a.buildpackOrder }

/-- The heap in which the six cells of a constructed configuration hold the
values of `a`. -/
def OptionValues.heap (a : OptionValues) : Heap :=
  [a.appDir, a.outputDropletDir, a.outputMetadataDir, a.buildpacksDir,
   a.buildArtifactsCacheDir, a.buildpackOrder]

/-- The default values for the buildpack list `B`. -/
def defaults (B : List String) : OptionValues :=
  { appDir := "/app"
    outputDropletDir := "/tmp/droplet"
    outputMetadataDir := "/tmp/result"
    buildpacksDir := "/tmp/buildpacks"
    buildArtifactsCacheDir := "/tmp/cache"
    buildpackOrder := strings.Join B "," }

/-- The struct that `NewLinuxCircusTailorConfig B` returns (see `New_eq`). -/
def constructed (B : List String) : LinuxCircusTailorConfig :=
  { FlagSet :=
      { name := "linux-smelter"
        errorHandling := flag.ErrorHandling.ExitOnError
        formal :=
          [("appDir", ⟨"appDir", "directory containing raw app bits", 0, "/app"⟩),
           ("outputDropletDir",
             ⟨"outputDropletDir", "directory in which to write the smelted app bits", 1,
              "/tmp/droplet"⟩),
           ("outputMetadataDir",
             ⟨"outputMetadataDir", "directory in which to place smelting result metadata", 2,
              "/tmp/result"⟩),
           ("buildpacksDir",
             ⟨"buildpacksDir", "directory containing the buildpacks to try", 3,
              "/tmp/buildpacks"⟩),
           ("buildArtifactsCacheDir",
             ⟨"buildArtifactsCacheDir", "directory to store cached artifacts to buildpacks", 4,
              "/tmp/cache"⟩),
           ("buildpackOrder",
             ⟨"buildpackOrder", "comma-separated list of buildpacks, to be tried in order", 5,
              strings.Join B ","⟩)] }
    compilerPath := "/tmp/compiler"
    values := [("appDir", 0), ("outputDropletDir", 1), ("outputMetadataDir", 2),
               ("buildpacksDir", 3), ("buildArtifactsCacheDir", 4), ("buildpackOrder", 5)]
    appDir := 0
    outputDropletDir := 1
    outputMetadataDir := 2
    buildpacksDir := 3
    buildArtifactsCacheDir := 4
    buildpackOrder := 5 }

/-- The token `-name='value'` of `Script` for the option `name` under `a`. -/
def token (a : OptionValues) (name : String) : String :=
  "-" ++ name ++ "='" ++ a.get name ++ "'"

/-- The hyphen-prefixed names of the options that are empty under `a`, in the
order `sortedOrder`. -/
def missing (a : OptionValues) : List String :=
  (sortedOrder.filter fun n => a.get n = "").map fun n => "-" ++ n

/-- The single-quote character, which `Script` puts around every value. -/
def quote : Char :=
  Char.ofNat 39

/-- No value of the assignment holds a single quote. -/
def OptionValues.quoteFree (a : OptionValues) : Prop :=
  quote ∉ a.appDir.data ∧ quote ∉ a.outputDropletDir.data ∧
  quote ∉ a.outputMetadataDir.data ∧ quote ∉ a.buildpacksDir.data ∧
  quote ∉ a.buildArtifactsCacheDir.data ∧ quote ∉ a.buildpackOrder.data

end Models

namespace Models

open LinuxCircusTailorConfig

/-! ## The constructor and the visiting order -/

/-- The constructor never panics: it returns `constructed B` and a heap of six
cells holding the defaults. -/
theorem New_eq (B : List String) :
    NewLinuxCircusTailorConfig B = some (constructed B, (defaults B).heap) := by
  rfl

/-- Setting the six options one after the other leaves exactly the assigned
values in the six cells. -/
theorem assign_eq (B : List String) (a b : OptionValues) :
    assign (constructed B) a b.heap = a.heap := by
  rfl

/-- `VisitAll` visits the six flags in increasing byte order of their names. -/
theorem sortFlags_names (B : List String) :
    (flag.sortFlags (constructed B).FlagSet.formal).map (fun f => f.Name) = sortedOrder := by
  rfl

/-- Every option name has a cell in `values`, holding the assigned value. -/
theorem valueOf_constructed (B : List String) (a : OptionValues) (n : String)
    (hn : n ∈ sortedOrder) :
    (constructed B).valueOf a.heap n = some (a.get n) := by
  simp only [sortedOrder, List.mem_cons, List.mem_singleton, List.not_mem_nil, or_false] at hn
  rcases hn with h | h | h | h | h | h <;> subst h <;> rfl

/-- The closure of `Validate`, folded over flags that all have a cell, collects
the hyphen-prefixed names of the flags with an empty value, in visiting order. -/
theorem foldlM_validate (s : LinuxCircusTailorConfig) (h : Heap) (get : String → String)
    (fs : List flag.Flag) (hget : ∀ f ∈ fs, s.valueOf h f.Name = some (get f.Name))
    (m : List String) :
    fs.foldlM (fun missingFlags (f : flag.Flag) =>
        match s.values.lookup f.Name with
        | none => pure missingFlags
        | some schemaFlag => do
          let value ← h.load schemaFlag
          if value = "" then pure (missingFlags ++ ["-" ++ f.Name])
          else pure missingFlags) m
      = some (m ++ ((fs.map fun f => f.Name).filter fun n => get n = "").map
          fun n => "-" ++ n) := by
  induction fs generalizing m with
  | nil => simp
  | cons f fs ih =>
    have hf := hget f (List.mem_cons_self _ _)
    have ih2 := fun m => ih (fun g hg => hget g (List.mem_cons_of_mem _ hg)) m
    simp only [valueOf] at hf
    cases hl : s.values.lookup f.Name with
    | none => simp [hl] at hf
    | some p =>
      simp only [hl, Option.some_bind] at hf
      simp only [List.foldlM_cons, hl, hf]
      by_cases he : get f.Name = ""
      · simp only [he, ↓reduceIte, bind, pure, Option.bind]
        refine (ih2 _).trans ?_
        simp [he, List.filter_cons]
      · simp only [he, ↓reduceIte, bind, pure, Option.bind]
        refine (ih2 _).trans ?_
        simp [he, List.filter_cons]

/-- The closure of `Script`, folded over flags that all have a cell, appends one
token per flag, in visiting order. -/
theorem foldlM_script (s : LinuxCircusTailorConfig) (h : Heap) (get : String → String)
    (fs : List flag.Flag) (hget : ∀ f ∈ fs, s.valueOf h f.Name = some (get f.Name))
    (argv : List String) :
    fs.foldlM (fun argv (f : flag.Flag) => do
        let p ← s.values.lookup f.Name
        let v ← h.load p
        pure (argv ++ [fmt.SprintfFlag f.Name v])) argv
      = some (argv ++ (fs.map fun f => f.Name).map fun n => fmt.SprintfFlag n (get n)) := by
  induction fs generalizing argv with
  | nil => simp
  | cons f fs ih =>
    have hf := hget f (List.mem_cons_self _ _)
    have ih2 := fun m => ih (fun g hg => hget g (List.mem_cons_of_mem _ hg)) m
    simp only [valueOf] at hf
    cases hl : s.values.lookup f.Name with
    | none => simp [hl] at hf
    | some p =>
      simp only [hl, Option.some_bind] at hf
      simp only [List.foldlM_cons, hl, hf, bind, pure, Option.bind]
      refine (ih2 _).trans ?_
      simp

/-- `Script` on a constructed configuration: the compiler command and the six
tokens in the order `sortedOrder`, joined with single spaces. -/
theorem Script_eq (B : List String) (a : OptionValues) :
    (constructed B).Script a.heap
      = some (strings.Join ("/tmp/compiler/run" :: sortedOrder.map (token a)) " ") := by
  have hc : (constructed B).compilerCommand = "/tmp/compiler/run" := by rfl
  have hfold := foldlM_script (constructed B) a.heap a.get
    (flag.sortFlags (constructed B).FlagSet.formal)
    (fun f hf => valueOf_constructed B a f.Name (by
      rw [← sortFlags_names B]; exact List.mem_map_of_mem _ hf)) [(constructed B).compilerCommand]
  simp only [Script, flag.FlagSet.VisitAll, hfold, sortFlags_names, hc]
  rfl

/-- The output of `Script` written out. -/
theorem Script_explicit (a : OptionValues) :
    strings.Join ("/tmp/compiler/run" :: sortedOrder.map (token a)) " "
      = "/tmp/compiler/run -appDir='" ++ a.appDir
        ++ "' -buildArtifactsCacheDir='" ++ a.buildArtifactsCacheDir
        ++ "' -buildpackOrder='" ++ a.buildpackOrder
        ++ "' -buildpacksDir='" ++ a.buildpacksDir
        ++ "' -outputDropletDir='" ++ a.outputDropletDir
        ++ "' -outputMetadataDir='" ++ a.outputMetadataDir ++ "'" := by
  apply String.ext
  simp [strings.Join, sortedOrder, token, OptionValues.get, String.data_append]

/-- `Validate` on a constructed configuration: `nil` when no option is empty,
otherwise the error listing `missing a`. -/
theorem Validate_eq (B : List String) (a : OptionValues) :
    (constructed B).Validate a.heap
      = some (if 0 < (missing a).length
          then some ("missing flags: " ++ strings.Join (missing a) ", ") else none) := by
  have hfold := foldlM_validate (constructed B) a.heap a.get
    (flag.sortFlags (constructed B).FlagSet.formal)
    (fun f hf => valueOf_constructed B a f.Name (by
      rw [← sortFlags_names B]; exact List.mem_map_of_mem _ hf)) []
  simp only [Validate, flag.FlagSet.VisitAll, hfold, sortFlags_names]
  simp only [List.nil_append, bind, Option.bind, pure, fmt.ErrorfMissingFlags, missing]
  split <;> rfl

end Models

namespace Models

open LinuxCircusTailorConfig

/-! ## Script and Validate -/

/-- C1 (counterexample).  With all defaults and the buildpack list `["ruby"]`,
`Script` lists the tokens in increasing byte order of the flag names (the order of
`VisitAll`), which is not the string in definition order. -/
theorem Script_defaults_not_in_definition_order :
    ∃ s h, NewLinuxCircusTailorConfig ["ruby"] = some (s, h) ∧
      s.Script h = some "/tmp/compiler/run -appDir='/app' -buildArtifactsCacheDir='/tmp/cache' -buildpackOrder='ruby' -buildpacksDir='/tmp/buildpacks' -outputDropletDir='/tmp/droplet' -outputMetadataDir='/tmp/result'" ∧
      s.Script h ≠ some "/tmp/compiler/run -appDir='/app' -outputDropletDir='/tmp/droplet' -outputMetadataDir='/tmp/result' -buildpacksDir='/tmp/buildpacks' -buildArtifactsCacheDir='/tmp/cache' -buildpackOrder='ruby'" :=
  ⟨constructed ["ruby"], (defaults ["ruby"]).heap, New_eq _, by decide!, by decide!⟩

/-- C1 (amended).  For every buildpack list and every assignment of values to the
six options, `Script` is `/tmp/compiler/run` followed by the six tokens
`-name='value'` in increasing byte order of the names (appDir,
buildArtifactsCacheDir, buildpackOrder, buildpacksDir, outputDropletDir,
outputMetadataDir), joined by single spaces; with all defaults and `["ruby"]` it
is the string shown. -/
theorem Script_tokens_in_name_order :
    (∀ (B : List String) (a : OptionValues),
      ∃ s h, NewLinuxCircusTailorConfig B = some (s, h) ∧
        s.Script (assign s a h)
          = some ("/tmp/compiler/run -appDir='" ++ a.appDir
              ++ "' -buildArtifactsCacheDir='" ++ a.buildArtifactsCacheDir
              ++ "' -buildpackOrder='" ++ a.buildpackOrder
              ++ "' -buildpacksDir='" ++ a.buildpacksDir
              ++ "' -outputDropletDir='" ++ a.outputDropletDir
              ++ "' -outputMetadataDir='" ++ a.outputMetadataDir ++ "'")) ∧
    (∃ s h, NewLinuxCircusTailorConfig ["ruby"] = some (s, h) ∧
      s.Script h = some "/tmp/compiler/run -appDir='/app' -buildArtifactsCacheDir='/tmp/cache' -buildpackOrder='ruby' -buildpacksDir='/tmp/buildpacks' -outputDropletDir='/tmp/droplet' -outputMetadataDir='/tmp/result'") := by
  refine ⟨fun B a => ⟨constructed B, (defaults B).heap, New_eq B, ?_⟩,
    constructed ["ruby"], (defaults ["ruby"]).heap, New_eq _, by decide!⟩
  rw [assign_eq, Script_eq, Script_explicit]

/-- No option is reported missing exactly when all six values are non-empty. -/
theorem missing_eq_nil_iff (a : OptionValues) :
    missing a = [] ↔
      a.appDir ≠ "" ∧ a.outputDropletDir ≠ "" ∧ a.outputMetadataDir ≠ "" ∧
      a.buildpacksDir ≠ "" ∧ a.buildArtifactsCacheDir ≠ "" ∧ a.buildpackOrder ≠ "" := by
  simp only [missing, List.map_eq_nil_iff, List.filter_eq_nil_iff, sortedOrder, List.mem_cons,
    List.mem_singleton, List.not_mem_nil, or_false, decide_eq_true_eq, forall_eq_or_imp, forall_eq,
    OptionValues.get]
  simp
  tauto

/-- C2.  For every constructed configuration and every assignment of values to
its six options, `Validate` returns `nil` if and only if every one of the six
values is a non-empty string. -/
theorem Validate_nil_iff_all_nonempty (B : List String) (a : OptionValues) :
    ∃ s h, NewLinuxCircusTailorConfig B = some (s, h) ∧
      (s.Validate (assign s a h) = some none ↔
        a.appDir ≠ "" ∧ a.outputDropletDir ≠ "" ∧ a.outputMetadataDir ≠ "" ∧
        a.buildpacksDir ≠ "" ∧ a.buildArtifactsCacheDir ≠ "" ∧ a.buildpackOrder ≠ "") := by
  refine ⟨constructed B, (defaults B).heap, New_eq B, ?_⟩
  rw [assign_eq, Validate_eq, ← missing_eq_nil_iff]
  cases hm : missing a with
  | nil => simp
  | cons x xs => simp

end Models

namespace Models

open LinuxCircusTailorConfig

/-- The visiting order holds the same six names as the definition order. -/
theorem mem_sortedOrder_iff (n : String) : n ∈ sortedOrder ↔ n ∈ definitionOrder := by
  simp only [sortedOrder, definitionOrder, List.mem_cons, List.mem_singleton, List.not_mem_nil,
    or_false]
  tauto

/-- The names of `sortedOrder` are pairwise distinct. -/
theorem sortedOrder_nodup : sortedOrder.Nodup := by
  decide

/-- C3.  `Validate` aggregates: when the set `S` of options whose value is `""` is
not empty, the error is `missing flags: ` followed by the comma-separated,
hyphen-prefixed names of a list `names` that has no repetition and holds exactly
the options of `S`. -/
theorem Validate_error_names_exactly_the_empty_options (B : List String) (a : OptionValues)
    (hS : ∃ n ∈ definitionOrder, a.get n = "") :
    ∃ s h, NewLinuxCircusTailorConfig B = some (s, h) ∧
      ∃ names : List String,
        s.Validate (assign s a h)
          = some (some ("missing flags: " ++ strings.Join (names.map fun n => "-" ++ n) ", ")) ∧
        names.Nodup ∧
        ∀ n, n ∈ names ↔ (n ∈ definitionOrder ∧ a.get n = "") := by
  refine ⟨constructed B, (defaults B).heap, New_eq B,
    sortedOrder.filter (fun n => a.get n = ""), ?_, sortedOrder_nodup.filter _, ?_⟩
  · rw [assign_eq, Validate_eq]
    obtain ⟨n, hn, hv⟩ := hS
    have hmem : n ∈ sortedOrder.filter (fun n => a.get n = "") :=
      List.mem_filter.mpr ⟨(mem_sortedOrder_iff n).mpr hn, by simpa using hv⟩
    have hpos : 0 < (missing a).length := by
      rw [missing, List.length_map]
      exact List.length_pos_of_mem hmem
    rw [if_pos hpos]
    rfl
  · intro n
    rw [List.mem_filter, mem_sortedOrder_iff]
    simp

/-- C3 (witness).  The buildpack list `["ruby"]` with `appDir` and
`buildpackOrder` emptied. -/
theorem Validate_error_names_exactly_the_empty_options_witness :
    (∃ n ∈ definitionOrder,
        ({ defaults ["ruby"] with appDir := "", buildpackOrder := "" } : OptionValues).get n = "") ∧
    ∃ s h, NewLinuxCircusTailorConfig ["ruby"] = some (s, h) ∧
      ∃ names : List String,
        s.Validate (assign s { defaults ["ruby"] with appDir := "", buildpackOrder := "" } h)
          = some (some ("missing flags: " ++ strings.Join (names.map fun n => "-" ++ n) ", ")) ∧
        names.Nodup ∧
        ∀ n, n ∈ names ↔ (n ∈ definitionOrder ∧
          ({ defaults ["ruby"] with appDir := "", buildpackOrder := "" } : OptionValues).get n = "") :=
  ⟨⟨"appDir", by decide, by decide⟩,
   Validate_error_names_exactly_the_empty_options ["ruby"]
     { defaults ["ruby"] with appDir := "", buildpackOrder := "" } ⟨"appDir", by decide, by decide⟩⟩

/-- C4 (counterexample).  With `outputDropletDir` and `buildpacksDir` both set to
`""`, the error lists `-buildpacksDir` before `-outputDropletDir`. -/
theorem Validate_error_not_in_definition_order :
    ∃ s h, NewLinuxCircusTailorConfig ["ruby"] = some (s, h) ∧
      s.Validate (override s [("outputDropletDir", ""), ("buildpacksDir", "")] h)
        = some (some "missing flags: -buildpacksDir, -outputDropletDir") ∧
      s.Validate (override s [("outputDropletDir", ""), ("buildpacksDir", "")] h)
        ≠ some (some "missing flags: -outputDropletDir, -buildpacksDir") :=
  ⟨constructed ["ruby"], (defaults ["ruby"]).heap, New_eq _, by decide!, by decide!⟩

/-- C4 (amended).  The flag names listed in the `Validate` error appear in
increasing byte order of the names (appDir, buildArtifactsCacheDir,
buildpackOrder, buildpacksDir, outputDropletDir, outputMetadataDir): the list is
this order filtered by emptiness, and this order is strictly increasing for Go's
string comparison; with `outputDropletDir` and `buildpacksDir` both empty,
`-buildpacksDir` is listed before `-outputDropletDir`. -/
theorem Validate_error_in_name_order :
    (∀ (B : List String) (a : OptionValues),
      ∃ s h, NewLinuxCircusTailorConfig B = some (s, h) ∧
        (s.Validate (assign s a h) = some none ∨
         s.Validate (assign s a h)
          = some (some ("missing flags: " ++ strings.Join
              ((["appDir", "buildArtifactsCacheDir", "buildpackOrder", "buildpacksDir",
                 "outputDropletDir", "outputMetadataDir"].filter fun n => a.get n = "").map
                fun n => "-" ++ n) ", ")))) ∧
    List.Pairwise (fun x y => stringLess x y = true)
      ["appDir", "buildArtifactsCacheDir", "buildpackOrder", "buildpacksDir",
       "outputDropletDir", "outputMetadataDir"] ∧
    (∃ s h, NewLinuxCircusTailorConfig ["ruby"] = some (s, h) ∧
      s.Validate (override s [("outputDropletDir", ""), ("buildpacksDir", "")] h)
        = some (some "missing flags: -buildpacksDir, -outputDropletDir")) := by
  refine ⟨fun B a => ⟨constructed B, (defaults B).heap, New_eq B, ?_⟩, by decide,
    constructed ["ruby"], (defaults ["ruby"]).heap, New_eq _, by decide!⟩
  rw [assign_eq, Validate_eq]
  by_cases hpos : 0 < (missing a).length
  · right
    rw [if_pos hpos]
    rfl
  · left
    rw [if_neg hpos]

/-- C5.  Immediately after construction the six options hold their defaults:
the five fixed directories, and for `buildpackOrder` the elements of the
buildpack list joined with `,`. -/
theorem New_option_values_are_defaults (B : List String) :
    ∃ s h, NewLinuxCircusTailorConfig B = some (s, h) ∧
      s.valueOf h "appDir" = some "/app" ∧
      s.valueOf h "outputDropletDir" = some "/tmp/droplet" ∧
      s.valueOf h "outputMetadataDir" = some "/tmp/result" ∧
      s.valueOf h "buildpacksDir" = some "/tmp/buildpacks" ∧
      s.valueOf h "buildArtifactsCacheDir" = some "/tmp/cache" ∧
      s.valueOf h "buildpackOrder" = some (strings.Join B ",") :=
  ⟨constructed B, (defaults B).heap, New_eq B, rfl, rfl, rfl, rfl, rfl, rfl⟩

end Models

namespace strings

/-! ## Splitting on a comma -/

/-- The loop of `genSplit` always returns at least one piece. -/
theorem genSplit_ne_nil (sep : List Char) (fuel : Nat) (rest cur : List Char) :
    genSplit sep fuel rest cur ≠ [] := by
  induction fuel generalizing rest cur with
  | zero => simp [genSplit]
  | succ fuel ih =>
    cases rest with
    | nil => simp [genSplit]
    | cons c t =>
      rw [genSplit]
      split
      · simp
      · exact ih _ _

/-- `Join` on a list with at least two elements. -/
theorem Join_cons_of_ne_nil (x : String) (xs : List String) (sep : String) (h : xs ≠ []) :
    Join (x :: xs) sep = x ++ sep ++ Join xs sep := by
  cases xs with
  | nil => exact absurd rfl h
  | cons y ys => rfl

/-- Joining the pieces with `,` gives back the bytes read so far and the input. -/
theorem genSplit_comma_join (fuel : Nat) (rest cur : List Char) (hf : rest.length ≤ fuel) :
    Join (genSplit [','] fuel rest cur) "," = String.mk (cur ++ rest) := by
  induction fuel generalizing rest cur with
  | zero => simp [genSplit, Join]
  | succ fuel ih =>
    cases rest with
    | nil => simp [genSplit, Join]
    | cons c t =>
      have ht : t.length ≤ fuel := by simpa using hf
      rw [genSplit]
      by_cases hc : c = ','
      · subst hc
        simp only [List.isPrefixOf, beq_self_eq_true, Bool.and_self, ↓reduceIte, List.length_singleton,
          List.drop_succ_cons, List.drop_zero]
        rw [Join_cons_of_ne_nil _ _ _ (genSplit_ne_nil _ _ _ _), ih _ _ ht]
        apply String.ext
        simp [String.data_append]
      · have : ([','].isPrefixOf (c :: t)) = false := by
          simp [List.isPrefixOf, Ne.symm hc]
        simp only [this, Bool.false_eq_true, ↓reduceIte]
        rw [ih _ _ ht]
        simp

/-- No piece holds a comma. -/
theorem genSplit_comma_free (fuel : Nat) (rest cur : List Char) (hf : rest.length ≤ fuel)
    (hcur : ',' ∉ cur) : ∀ p ∈ genSplit [','] fuel rest cur, ',' ∉ p.data := by
  induction fuel generalizing rest cur with
  | zero =>
    have : rest = [] := List.length_eq_zero.mp (Nat.le_zero.mp hf)
    subst this
    simpa [genSplit] using hcur
  | succ fuel ih =>
    cases rest with
    | nil => simpa [genSplit] using hcur
    | cons c t =>
      have ht : t.length ≤ fuel := by simpa using hf
      rw [genSplit]
      by_cases hc : c = ','
      · subst hc
        simp only [List.isPrefixOf, beq_self_eq_true, Bool.and_self, ↓reduceIte, List.length_singleton,
          List.drop_succ_cons, List.drop_zero, List.mem_cons]
        rintro p (rfl | hp)
        · exact hcur
        · exact ih _ _ ht (by simp) p hp
      · have : ([','].isPrefixOf (c :: t)) = false := by
          simp [List.isPrefixOf, Ne.symm hc]
        simp only [this, Bool.false_eq_true, ↓reduceIte]
        exact ih _ _ ht (by simp [hcur, Ne.symm hc])

end strings

namespace Models

open LinuxCircusTailorConfig

/-! ## BuildpackOrder -/

/-- C7.  For every value `v` of the `buildpackOrder` option, `BuildpackOrder` is
the split of `v` on `,`: a non-empty list of comma-free pieces whose join with `,`
is `v`.  On `ruby,python,go` it is `["ruby", "python", "go"]`, and on the empty
string it is the one-element list `[""]`. -/
theorem BuildpackOrder_splits_on_comma (B : List String) (a : OptionValues) :
    ∃ s h, NewLinuxCircusTailorConfig B = some (s, h) ∧
      (∃ parts, s.BuildpackOrder (assign s a h) = some parts ∧
        parts = strings.Split a.buildpackOrder "," ∧
        parts ≠ [] ∧
        strings.Join parts "," = a.buildpackOrder ∧
        ∀ p ∈ parts, ',' ∉ p.data) ∧
      s.BuildpackOrder (assign s { a with buildpackOrder := "ruby,python,go" } h)
        = some ["ruby", "python", "go"] ∧
      s.BuildpackOrder (assign s { a with buildpackOrder := "" } h) = some [""] := by
  refine ⟨constructed B, (defaults B).heap, New_eq B,
    ⟨strings.Split a.buildpackOrder ",", ?_, rfl, ?_, ?_, ?_⟩, ?_, ?_⟩
  · rw [assign_eq]; rfl
  · exact strings.genSplit_ne_nil _ _ _ _
  · exact strings.genSplit_comma_join _ _ _ (Nat.le_refl _)
  · exact strings.genSplit_comma_free _ _ _ (Nat.le_refl _) (by simp)
  · rw [assign_eq]; rfl
  · rw [assign_eq]; rfl

end Models

namespace Models

open LinuxCircusTailorConfig

/-! ## Overrides -/

/-- One call of `Set` on a constructed configuration changes the cell of the named
option and no other; for a name that is not an option it changes nothing. -/
theorem Set_constructed (B : List String) (a : OptionValues) (N v : String) :
    ((constructed B).FlagSet.Set N v a.heap).2 = (a.update N v).heap := by
  by_cases h1 : N = "appDir"
  · subst h1; rfl
  by_cases h2 : N = "outputDropletDir"
  · subst h2; rfl
  by_cases h3 : N = "outputMetadataDir"
  · subst h3; rfl
  by_cases h4 : N = "buildpacksDir"
  · subst h4; rfl
  by_cases h5 : N = "buildArtifactsCacheDir"
  · subst h5; rfl
  by_cases h6 : N = "buildpackOrder"
  · subst h6; rfl
  have hl : (constructed B).FlagSet.formal.lookup N = none := by
    simp only [constructed, List.lookup, beq_eq_false_iff_ne.mpr h1, beq_eq_false_iff_ne.mpr h2,
      beq_eq_false_iff_ne.mpr h3, beq_eq_false_iff_ne.mpr h4, beq_eq_false_iff_ne.mpr h5,
      beq_eq_false_iff_ne.mpr h6]
  simp only [flag.FlagSet.Set, hl, OptionValues.update, h1, h2, h3, h4, h5, h6, ↓reduceIte]

/-- The token of an option after one override. -/
theorem token_update (a : OptionValues) (N v n : String) (hn : n ∈ sortedOrder) :
    token (a.update N v) n = if n = N then "-" ++ N ++ "='" ++ v ++ "'" else token a n := by
  simp only [sortedOrder, List.mem_cons, List.mem_singleton, List.not_mem_nil, or_false] at hn
  by_cases h : n = N
  · subst h
    rw [if_pos rfl]
    rcases hn with h | h | h | h | h | h <;> subst h <;> rfl
  · rw [if_neg h]
    have h' : ¬ N = n := fun e => h e.symm
    rcases hn with e | e | e | e | e | e <;> subst e <;>
      simp [token, OptionValues.get, OptionValues.update, h']

/-- C8.  Setting one option `N` to a new value `v` and calling `Script` again
changes only the token of `N`: before and after, the output is the compiler
command followed by one token per option in the same order (`sortedOrder`); after
the override the token of `N` is `-N='v'` and every other token is the token it
was before. -/
theorem Script_changes_only_the_overridden_token (B : List String) (a : OptionValues)
    (N v : String) :
    ∃ s h, NewLinuxCircusTailorConfig B = some (s, h) ∧
      s.Script (assign s a h)
        = some (strings.Join ("/tmp/compiler/run" :: sortedOrder.map (token a)) " ") ∧
      s.Script (override s [(N, v)] (assign s a h))
        = some (strings.Join ("/tmp/compiler/run" :: sortedOrder.map
            fun n => if n = N then "-" ++ N ++ "='" ++ v ++ "'" else token a n) " ") := by
  refine ⟨constructed B, (defaults B).heap, New_eq B, ?_, ?_⟩
  · rw [assign_eq, Script_eq]
  · rw [assign_eq]
    have : override (constructed B) [(N, v)] a.heap = (a.update N v).heap :=
      Set_constructed B a N v
    rw [this, Script_eq]
    congr 3
    exact List.map_congr_left fun n hn => token_update a N v n hn

/-- Every sequence of overrides of a constructed configuration leaves a heap of
six cells, one value per option. -/
theorem override_eq_heap (B : List String) (ops : List (String × String)) (a : OptionValues) :
    ∃ b : OptionValues, override (constructed B) ops a.heap = b.heap := by
  induction ops generalizing a with
  | nil => exact ⟨a, rfl⟩
  | cons op ops ih =>
    obtain ⟨b, hb⟩ := ih (a.update op.1 op.2)
    refine ⟨b, ?_⟩
    rw [← hb, ← Set_constructed B a op.1 op.2]
    rfl

end Models

namespace path

/-! ## path.Clean and path.Join -/

/-- Dropping a prefix stops at the first character that fails the test. -/
theorem dropWhile_append_stop (p : Char → Bool) (a : Char) (hp : p a = false)
    (l x : List Char) : (l ++ a :: x).dropWhile p = l.dropWhile p ++ a :: x := by
  induction l with
  | nil => simp [List.dropWhile_cons, hp]
  | cons c l ih =>
    rw [List.cons_append, List.dropWhile_cons, List.dropWhile_cons]
    split
    · exact ih
    · rfl

/-- Taking a prefix stops at the first character that fails the test. -/
theorem takeWhile_append_stop (p : Char → Bool) (a : Char) (hp : p a = false)
    (l x : List Char) : (l ++ a :: x).takeWhile p = l.takeWhile p := by
  induction l with
  | nil => simp [List.takeWhile_cons, hp]
  | cons c l ih =>
    rw [List.cons_append, List.takeWhile_cons, List.takeWhile_cons]
    split
    · rw [ih]
    · rfl

/-- Dropping a prefix does not lengthen a list. -/
theorem length_dropWhile_le (p : Char → Bool) (l : List Char) :
    (l.dropWhile p).length ≤ l.length := by
  induction l with
  | nil => simp
  | cons c l ih =>
    rw [List.dropWhile_cons]
    split
    · exact Nat.le_succ_of_le ih
    · exact Nat.le_refl _

/-- The iteration on a slash: an empty path element, skipped. -/
theorem cleanStep_slash (rooted : Bool) (t out : List Char) (dd : Nat) :
    cleanStep rooted '/' t out dd = (t, out, dd) := by
  simp [cleanStep]

/-- The iteration on a `.` element, skipped. -/
theorem cleanStep_dot (rooted : Bool) (t out : List Char) (dd : Nat)
    (h : t = [] ∨ t.head? = some '/') :
    cleanStep rooted '.' t out dd = (t, out, dd) := by
  unfold cleanStep
  rw [if_neg (by decide), if_pos ⟨rfl, h⟩]

/-- The iteration on a `..` element. -/
theorem cleanStep_dotdot (rooted : Bool) (t out : List Char) (dd : Nat)
    (h2 : ¬ (t = [] ∨ t.head? = some '/')) (h3 : t.head? = some '.')
    (h4 : t.tail = [] ∨ t.tail.head? = some '/') :
    cleanStep rooted '.' t out dd
      = (t.tail, (dotdotState rooted out dd).1, (dotdotState rooted out dd).2) := by
  unfold cleanStep dotdotState
  rw [if_neg (by decide), if_neg (fun h => h2 h.2), if_pos ⟨rfl, h3, h4⟩]
  split
  · rfl
  · split <;> rfl

/-- The iteration on a real path element: the separator, then the element. -/
theorem cleanStep_element (rooted : Bool) (c : Char) (t out : List Char) (dd : Nat)
    (h1 : c ≠ '/') (h2 : ¬ (c = '.' ∧ (t = [] ∨ t.head? = some '/')))
    (h3 : ¬ (c = '.' ∧ t.head? = some '.' ∧ (t.tail = [] ∨ t.tail.head? = some '/'))) :
    cleanStep rooted c t out dd
      = ((c :: t).dropWhile (fun x => x ≠ '/'),
         slashIfNeeded rooted out ++ (c :: t).takeWhile (fun x => x ≠ '/'), dd) := by
  unfold cleanStep slashIfNeeded
  rw [if_neg h1, if_neg h2, if_neg h3]

/-- An iteration never looks beyond the next slash: on an input `c :: t` followed
by a slash and anything else, the unread input is a shorter list followed by the
same slash and the same rest, and the buffer does not depend on that rest. -/
theorem cleanStep_append (rooted : Bool) (c : Char) (t out : List Char) (dd : Nat) :
    ∃ t' out' dd', t'.length ≤ t.length ∧
      ∀ x, cleanStep rooted c (t ++ '/' :: x) out dd = (t' ++ '/' :: x, out', dd') := by
  by_cases h1 : c = '/'
  · subst h1
    exact ⟨t, out, dd, Nat.le_refl _, fun x => cleanStep_slash _ _ _ _⟩
  have hp : (fun x : Char => decide (x ≠ '/')) '/' = false := by decide
  have hpc : decide (c ≠ '/') = true := by simpa using h1
  have hdef : ∀ x,
      ((c :: (t ++ '/' :: x)).dropWhile (fun y => y ≠ '/'),
        slashIfNeeded rooted out ++ (c :: (t ++ '/' :: x)).takeWhile (fun y => y ≠ '/'), dd)
        = (t.dropWhile (fun y => y ≠ '/') ++ '/' :: x,
            slashIfNeeded rooted out ++ c :: t.takeWhile (fun y => y ≠ '/'), dd) := by
    intro x
    rw [List.dropWhile_cons, List.takeWhile_cons, if_pos hpc, if_pos hpc,
      dropWhile_append_stop _ _ hp, takeWhile_append_stop _ _ hp]
  by_cases h2 : c = '.' ∧ (t = [] ∨ t.head? = some '/')
  · obtain ⟨rfl, h2⟩ := h2
    refine ⟨t, out, dd, Nat.le_refl _, fun x => cleanStep_dot _ _ _ _ ?_⟩
    rcases h2 with h2 | h2
    · subst h2; exact Or.inr rfl
    · cases t with
      | nil => exact Or.inr rfl
      | cons c2 t2 => exact Or.inr h2
  by_cases h3 : c = '.' ∧ t.head? = some '.' ∧ (t.tail = [] ∨ t.tail.head? = some '/')
  · obtain ⟨rfl, h3, h4⟩ := h3
    cases t with
    | nil => simp at h3
    | cons c2 t2 =>
      refine ⟨t2, (dotdotState rooted out dd).1, (dotdotState rooted out dd).2, Nat.le_succ _,
        fun x => ?_⟩
      rw [cleanStep_dotdot]
      · rfl
      · intro h
        exact h2 ⟨rfl, Or.inr (by simpa using h)⟩
      · exact h3
      · rcases h4 with h4 | h4
        · simp only [List.tail_cons] at h4
          subst h4
          exact Or.inr rfl
        · cases t2 with
          | nil => exact Or.inr rfl
          | cons c3 t3 => exact Or.inr h4
  · refine ⟨t.dropWhile (fun y => y ≠ '/'),
      slashIfNeeded rooted out ++ c :: t.takeWhile (fun y => y ≠ '/'), dd,
      length_dropWhile_le _ _, fun x => ?_⟩
    rw [cleanStep_element _ _ _ _ _ h1, hdef x]
    · rintro ⟨rfl, h⟩
      apply h2
      refine ⟨rfl, ?_⟩
      cases t with
      | nil => exact Or.inl rfl
      | cons c2 t2 => simpa using h
    · rintro ⟨rfl, h, h'⟩
      cases t with
      | nil => simp at h
      | cons c2 t2 =>
        apply h3
        refine ⟨rfl, h, ?_⟩
        cases t2 with
        | nil => exact Or.inl rfl
        | cons c3 t3 => simpa using h'

/-- Dropping a prefix of a list whose characters all pass the test leaves nothing. -/
theorem dropWhile_of_forall (p : Char → Bool) (l : List Char) (h : ∀ x ∈ l, p x = true) :
    l.dropWhile p = [] := by
  induction l with
  | nil => rfl
  | cons c l ih =>
    rw [List.dropWhile_cons, if_pos (h c (List.mem_cons_self _ _))]
    exact ih fun x hx => h x (List.mem_cons_of_mem _ hx)

/-- Taking a prefix of a list whose characters all pass the test takes it all. -/
theorem takeWhile_of_forall (p : Char → Bool) (l : List Char) (h : ∀ x ∈ l, p x = true) :
    l.takeWhile p = l := by
  induction l with
  | nil => rfl
  | cons c l ih =>
    rw [List.takeWhile_cons, if_pos (h c (List.mem_cons_self _ _)),
      ih fun x hx => h x (List.mem_cons_of_mem _ hx)]

/-- The iteration on a path element that ends the input or is followed by a
slash copies the element and stops in front of the slash. -/
theorem cleanStep_isElement (rooted : Bool) (c : Char) (t rest out : List Char) (dd : Nat)
    (he : isElement (c :: t)) (hr : rest = [] ∨ ∃ x, rest = '/' :: x) :
    cleanStep rooted c (t ++ rest) out dd = (rest, slashIfNeeded rooted out ++ c :: t, dd) := by
  obtain ⟨-, hslash, hdot, hdotdot⟩ := he
  have hp : (fun x : Char => decide (x ≠ '/')) '/' = false := by decide
  have hall : ∀ x ∈ c :: t, (fun x : Char => decide (x ≠ '/')) x = true := by
    intro x hx
    have : x ≠ '/' := fun e => hslash (e ▸ hx)
    simpa using this
  have hc : c ≠ '/' := fun e => hslash (e ▸ List.mem_cons_self _ _)
  have ht : ∀ x ∈ t, x ≠ '/' := fun x hx e => hslash (e ▸ List.mem_cons_of_mem _ hx)
  have hhead : ∀ y, rest.head? = some y → y = '/' := by
    intro y hy
    rcases hr with hr | ⟨x, hr⟩
    · subst hr; simp at hy
    · subst hr; simpa using hy.symm
  rw [cleanStep_element _ _ _ _ _ hc]
  · have h1 : (c :: (t ++ rest)).dropWhile (fun x => x ≠ '/') = rest := by
      rcases hr with hr | ⟨x, hr⟩
      · subst hr
        rw [List.append_nil]
        exact dropWhile_of_forall _ _ hall
      · subst hr
        rw [← List.cons_append, dropWhile_append_stop _ _ hp, dropWhile_of_forall _ _ hall]
        rfl
    have h2 : (c :: (t ++ rest)).takeWhile (fun x => x ≠ '/') = c :: t := by
      rcases hr with hr | ⟨x, hr⟩
      · subst hr
        rw [List.append_nil]
        exact takeWhile_of_forall _ _ hall
      · subst hr
        rw [← List.cons_append, takeWhile_append_stop _ _ hp, takeWhile_of_forall _ _ hall]
    rw [h1, h2]
  · rintro ⟨rfl, h⟩
    cases t with
    | nil => exact hdot rfl
    | cons c2 t2 =>
      rcases h with h | h
      · simp at h
      · have : c2 = '/' := by simpa using h
        exact ht c2 (List.mem_cons_self _ _) this
  · rintro ⟨rfl, h, h'⟩
    cases t with
    | nil =>
      have := hhead '.' (by simpa using h)
      exact absurd this (by decide)
    | cons c2 t2 =>
      have hc2 : c2 = '.' := by simpa using h
      subst hc2
      cases t2 with
      | nil => exact hdotdot rfl
      | cons c3 t3 =>
        rcases h' with h' | h'
        · simp at h'
        · have : c3 = '/' := by simpa using h'
          exact ht c3 (List.mem_cons_of_mem _ (List.mem_cons_self _ _)) this

/-- The loop ends when the input is exhausted. -/
theorem cleanLoop_nil (rooted : Bool) (fuel : Nat) (out : List Char) (dd : Nat) :
    cleanLoop rooted fuel [] out dd = out := by
  cases fuel <;> rfl

/-- One unfolding of the loop. -/
theorem cleanLoop_cons (rooted : Bool) (fuel : Nat) (c : Char) (t out : List Char) (dd : Nat) :
    cleanLoop rooted (fuel + 1) (c :: t) out dd
      = cleanLoop rooted fuel (cleanStep rooted c t out dd).1 (cleanStep rooted c t out dd).2.1
          (cleanStep rooted c t out dd).2.2 := by
  rfl

/-- The loop on a last path element appends the separator and the element. -/
theorem cleanLoop_isElement (rooted : Bool) (fuel : Nat) (e out : List Char) (dd : Nat)
    (he : isElement e) (hf : 1 ≤ fuel) :
    cleanLoop rooted fuel e out dd = slashIfNeeded rooted out ++ e := by
  obtain ⟨f, rfl⟩ : ∃ f, fuel = f + 1 := ⟨fuel - 1, by omega⟩
  cases e with
  | nil => exact absurd rfl he.1
  | cons c t =>
    have := cleanStep_isElement rooted c t [] out dd he (Or.inl rfl)
    rw [List.append_nil] at this
    rw [cleanLoop_cons, this, cleanLoop_nil]

/-- The loop on any input followed by a slash and a last path element returns a
prefix that does not depend on the element, followed by the element. -/
theorem cleanLoop_append_element (rooted : Bool) (n : Nat) :
    ∀ (a : List Char), a.length ≤ n → ∀ (out : List Char) (dd : Nat),
      ∃ pre : List Char, ∀ (e : List Char) (fuel : Nat), isElement e →
        a.length + 1 + e.length ≤ fuel →
        cleanLoop rooted fuel (a ++ '/' :: e) out dd = pre ++ e := by
  induction n with
  | zero =>
    intro a ha out dd
    have : a = [] := List.length_eq_zero.mp (Nat.le_zero.mp ha)
    subst this
    refine ⟨slashIfNeeded rooted out, fun e fuel he hf => ?_⟩
    obtain ⟨f, rfl⟩ : ∃ f, fuel = f + 1 := ⟨fuel - 1, by simp at hf; omega⟩
    have he1 : 1 ≤ e.length := List.length_pos.mpr he.1
    rw [List.nil_append, cleanLoop_cons, cleanStep_slash]
    exact cleanLoop_isElement rooted f e out dd he (by simp at hf; omega)
  | succ n ih =>
    intro a ha out dd
    cases a with
    | nil => exact ih [] (Nat.zero_le _) out dd
    | cons c t =>
      obtain ⟨t', out', dd', hlen, hx⟩ := cleanStep_append rooted c t out dd
      have ht : t.length ≤ n := by simpa using ha
      obtain ⟨pre, hpre⟩ := ih t' (hlen.trans ht) out' dd'
      refine ⟨pre, fun e fuel he hf => ?_⟩
      obtain ⟨f, rfl⟩ : ∃ f, fuel = f + 1 := ⟨fuel - 1, by simp at hf; omega⟩
      rw [List.cons_append, cleanLoop_cons, hx e]
      exact hpre e f he (by simp at hf; omega)

/-- `Clean` on a path that starts with a slash. -/
theorem Clean_rooted (p : String) (t : List Char) (h : p.data = '/' :: t) :
    Clean p = if (cleanLoop true (t.length + 1) t ['/'] 1).length = 0 then "."
      else String.mk (cleanLoop true (t.length + 1) t ['/'] 1) := by
  have hne : p ≠ "" := by
    intro e
    rw [e] at h
    exact absurd h (by simp)
  unfold Clean
  rw [if_neg hne]
  simp only [h, List.head?_cons, decide_True, ↓reduceIte, List.length_cons, List.drop_succ_cons,
    List.drop_zero]

/-- `Clean` on a path that does not start with a slash. -/
theorem Clean_relative (p : String) (c : Char) (t : List Char) (h : p.data = c :: t)
    (hc : c ≠ '/') :
    Clean p = if (cleanLoop false (t.length + 1) (c :: t) [] 0).length = 0 then "."
      else String.mk (cleanLoop false (t.length + 1) (c :: t) [] 0) := by
  have hne : p ≠ "" := by
    intro e
    rw [e] at h
    exact absurd h (by simp)
  unfold Clean
  rw [if_neg hne]
  simp [h, hc]

/-- No separator is written at the start of a relative path. -/
theorem slashIfNeeded_relative_nil : slashIfNeeded false [] = [] := by
  simp [slashIfNeeded]

/-- No separator is written right after the root slash. -/
theorem slashIfNeeded_rooted_slash : slashIfNeeded true ['/'] = ['/'] := by
  simp [slashIfNeeded]

/-- A single path element is clean. -/
theorem Clean_element (e : String) (he : isElement e.data) : Clean e = e := by
  cases hd : e.data with
  | nil => exact absurd hd he.1
  | cons c t =>
    have hc : c ≠ '/' := fun h => he.2.1 (by rw [hd, h]; exact List.mem_cons_self _ _)
    rw [Clean_relative e c t hd hc, ← hd,
      cleanLoop_isElement false _ _ _ _ he (Nat.succ_le_succ (Nat.zero_le _)),
      slashIfNeeded_relative_nil, List.nil_append, if_neg]
    rw [hd]; simp

/-- Cleaning a non-empty directory followed by a slash and a path element gives
a prefix that depends on the directory only, followed by the element. -/
theorem Clean_append_element (d : String) (hd : d ≠ "") :
    ∃ pre : List Char, ∀ e : String, isElement e.data →
      Clean (d ++ "/" ++ e) = String.mk (pre ++ e.data) := by
  cases hdd : d.data with
  | nil => exact absurd (String.ext hdd) hd
  | cons c t =>
    by_cases hc : c = '/'
    · subst hc
      obtain ⟨pre, hpre⟩ := cleanLoop_append_element true t.length t (Nat.le_refl _) ['/'] 1
      refine ⟨pre, fun e he => ?_⟩
      have hdata : (d ++ "/" ++ e).data = '/' :: (t ++ '/' :: e.data) := by
        simp [String.data_append, hdd]
      rw [Clean_rooted _ _ hdata, hpre e.data _ he (by simp; omega), if_neg]
      intro h0
      have := List.length_pos.mpr he.1
      rw [List.length_append] at h0
      omega
    · obtain ⟨pre, hpre⟩ :=
        cleanLoop_append_element false (c :: t).length (c :: t) (Nat.le_refl _) [] 0
      refine ⟨pre, fun e he => ?_⟩
      have hdata : (d ++ "/" ++ e).data = c :: (t ++ '/' :: e.data) := by
        simp [String.data_append, hdd]
      rw [Clean_relative _ _ _ hdata hc, ← List.cons_append, hpre e.data _ he (by simp; omega),
        if_neg]
      intro h0
      have := List.length_pos.mpr he.1
      rw [List.length_append] at h0
      omega

/-- Joining a directory and a path element: the result is a prefix that depends
on the directory only, followed by the element. -/
theorem Join_element (d : String) :
    ∃ pre : List Char, ∀ e : String, isElement e.data →
      Join [d, e] = String.mk (pre ++ e.data) := by
  by_cases hd : d = ""
  · subst hd
    refine ⟨[], fun e he => ?_⟩
    have hne : e ≠ "" := fun h => he.1 (by rw [h])
    simp only [Join, ne_eq, not_true_eq_false, ↓reduceIte, hne, not_false_eq_true, strings.Join,
      List.nil_append]
    exact Clean_element e he
  · obtain ⟨pre, hpre⟩ := Clean_append_element d hd
    refine ⟨pre, fun e he => ?_⟩
    simp only [Join, ne_eq, hd, not_false_eq_true, ↓reduceIte, strings.Join]
    exact hpre e he

/-- The separator is written when the buffer holds more than the root. -/
theorem slashIfNeeded_eq_append (rooted : Bool) (out : List Char)
    (h : (rooted = true ∧ out.length ≠ 1) ∨ (¬ rooted = true ∧ out.length ≠ 0)) :
    slashIfNeeded rooted out = out ++ ['/'] := by
  unfold slashIfNeeded
  rw [if_pos h]

/-- After a path element was copied, the next element gets a separator. -/
theorem slashIfNeeded_after_element (rooted : Bool) (out s : List Char)
    (hout : rooted = true → out ≠ []) (hs : s ≠ []) :
    slashIfNeeded rooted (slashIfNeeded rooted out ++ s) = slashIfNeeded rooted out ++ s ++ ['/'] := by
  have hs1 : 1 ≤ s.length := List.length_pos.mpr hs
  have hle : out.length ≤ (slashIfNeeded rooted out).length := by
    unfold slashIfNeeded
    split <;> simp
  have hcond : (rooted = true ∧ (slashIfNeeded rooted out ++ s).length ≠ 1) ∨
      (¬ rooted = true ∧ (slashIfNeeded rooted out ++ s).length ≠ 0) := by
    rw [List.length_append]
    by_cases hr : rooted = true
    · have : 1 ≤ out.length := List.length_pos.mpr (hout hr)
      exact Or.inl ⟨hr, by omega⟩
    · exact Or.inr ⟨hr, by omega⟩
  exact slashIfNeeded_eq_append _ _ hcond

/-- Two iterations of the loop: a path element, then the slash after it. -/
theorem cleanLoop_element_slash (rooted : Bool) (f : Nat) (s rest out : List Char) (dd : Nat)
    (hs : isElement s) :
    cleanLoop rooted (f + 2) (s ++ '/' :: rest) out dd
      = cleanLoop rooted f rest (slashIfNeeded rooted out ++ s) dd := by
  cases s with
  | nil => exact absurd rfl hs.1
  | cons c t =>
    rw [List.cons_append, cleanLoop_cons,
      cleanStep_isElement rooted c t ('/' :: rest) out dd hs (Or.inr ⟨rest, rfl⟩),
      cleanLoop_cons, cleanStep_slash]

/-- The characters of a slash-joined list with at least two elements. -/
theorem Join_data_cons (s t : String) (ss : List String) :
    (strings.Join (s :: t :: ss) "/").data = s.data ++ '/' :: (strings.Join (t :: ss) "/").data := by
  simp [strings.Join, String.data_append]

/-- The loop copies a slash-separated list of path elements followed by a last
element as it is. -/
theorem cleanLoop_plain (rooted : Bool) (segs : List String) (hsegs : ∀ s ∈ segs, isElement s.data)
    (hne : segs ≠ []) :
    ∀ (out e : List Char) (dd fuel : Nat), isElement e → (rooted = true → out ≠ []) →
      ((strings.Join segs "/").data ++ '/' :: e).length ≤ fuel →
      cleanLoop rooted fuel ((strings.Join segs "/").data ++ '/' :: e) out dd
        = slashIfNeeded rooted out ++ ((strings.Join segs "/").data ++ '/' :: e) := by
  induction segs with
  | nil => exact absurd rfl hne
  | cons s ss ih =>
    intro out e dd fuel he hout hf
    have hs : isElement s.data := hsegs s (List.mem_cons_self _ _)
    have he1 : 1 ≤ e.length := List.length_pos.mpr he.1
    have hs1 : 1 ≤ s.length := List.length_pos.mpr hs.1
    cases ss with
    | nil =>
      have hj : (strings.Join [s] "/").data = s.data := rfl
      rw [hj] at hf ⊢
      obtain ⟨f, rfl⟩ : ∃ f, fuel = f + 2 := ⟨fuel - 2, by simp at hf; omega⟩
      rw [cleanLoop_element_slash _ _ _ _ _ _ hs,
        cleanLoop_isElement _ _ _ _ _ he (by simp at hf; omega),
        slashIfNeeded_after_element _ _ _ hout hs.1]
      simp
    | cons t ts =>
      rw [Join_data_cons] at hf ⊢
      obtain ⟨f, rfl⟩ : ∃ f, fuel = f + 2 := ⟨fuel - 2, by simp at hf; omega⟩
      rw [List.append_assoc, List.cons_append, cleanLoop_element_slash _ _ _ _ _ _ hs,
        ih (fun x hx => hsegs x (List.mem_cons_of_mem _ hx)) (by simp) _ e dd f he
          (fun _ => by simp [hs.1]) (by simp at hf ⊢; omega),
        slashIfNeeded_after_element _ _ _ hout hs.1]
      simp

/-- A slash-joined list of path elements does not start with a slash. -/
theorem Join_data_head (segs : List String) (hsegs : ∀ s ∈ segs, isElement s.data)
    (hne : segs ≠ []) :
    ∃ c t, (strings.Join segs "/").data = c :: t ∧ c ≠ '/' := by
  cases segs with
  | nil => exact absurd rfl hne
  | cons s ss =>
    have hs : isElement s.data := hsegs s (List.mem_cons_self _ _)
    cases hd : s.data with
    | nil => exact absurd hd hs.1
    | cons c t =>
      have hc : c ≠ '/' := fun h => hs.2.1 (by rw [hd, h]; exact List.mem_cons_self _ _)
      cases ss with
      | nil => exact ⟨c, t, hd, hc⟩
      | cons u us => exact ⟨c, _, by rw [Join_data_cons, hd]; rfl, hc⟩

/-- Joining a plain directory and a path element puts one slash between them and
changes nothing else. -/
theorem Join_plain (d e : String) (hd : isPlainDir d) (he : isElement e.data) :
    Join [d, e] = d ++ "/" ++ e := by
  obtain ⟨segs, hne, hsegs, hd | hd⟩ := hd
  · obtain ⟨c, t, hdata, hc⟩ := Join_data_head segs hsegs hne
    have hdne : d ≠ "" := by
      intro h0
      rw [hd] at h0
      rw [h0] at hdata
      exact absurd hdata (by simp)
    have hfull : (d ++ "/" ++ e).data = (strings.Join segs "/").data ++ '/' :: e.data := by
      simp [String.data_append, hd]
    have hfull' : (d ++ "/" ++ e).data = c :: (t ++ '/' :: e.data) := by
      rw [hfull, hdata]; rfl
    simp only [Join, ne_eq, hdne, not_false_eq_true, ↓reduceIte, strings.Join]
    rw [Clean_relative _ _ _ hfull' hc, ← List.cons_append, ← hdata,
      cleanLoop_plain false segs hsegs hne [] e.data 0 _ he (fun h => by simp at h)
        (by rw [hdata]; simp),
      slashIfNeeded_relative_nil, List.nil_append, if_neg, ← hfull]
    rw [hdata]; simp
  · have hdne : d ≠ "" := by
      intro h0
      rw [hd] at h0
      have := congrArg String.data h0
      simp [String.data_append] at this
    have hfull : (d ++ "/" ++ e).data
        = '/' :: ((strings.Join segs "/").data ++ '/' :: e.data) := by
      simp [String.data_append, hd]
    simp only [Join, ne_eq, hdne, not_false_eq_true, ↓reduceIte, strings.Join]
    rw [Clean_rooted _ _ hfull,
      cleanLoop_plain true segs hsegs hne ['/'] e.data 1 _ he (fun _ => by simp) (by simp),
      slashIfNeeded_rooted_slash, if_neg]
    · apply String.ext
      rw [hfull]; rfl
    · simp

end path

namespace md5

/-- `littleEndian n x` has `n` bytes. -/
theorem littleEndian_length (n x : Nat) : (littleEndian n x).length = n := by
  induction n generalizing x with
  | zero => rfl
  | succ n ih => simp [littleEndian, ih]

/-- Every byte of `littleEndian n x` is below 256. -/
theorem littleEndian_lt (n x : Nat) : ∀ b ∈ littleEndian n x, b < 256 := by
  induction n generalizing x with
  | zero => simp [littleEndian]
  | succ n ih =>
    intro b hb
    simp only [littleEndian, List.mem_cons] at hb
    rcases hb with rfl | hb
    · exact Nat.mod_lt _ (by decide)
    · exact ih _ b hb

/-- The digest has sixteen bytes. -/
theorem Sum_length (data : List Nat) : (Sum data).length = 16 := by
  simp [Sum, littleEndian_length]

/-- Every byte of the digest is below 256. -/
theorem Sum_lt (data : List Nat) : ∀ b ∈ Sum data, b < 256 := by
  intro b hb
  simp only [Sum, List.mem_append] at hb
  rcases hb with ((hb | hb) | hb) | hb <;> exact littleEndian_lt _ _ b hb

end md5

namespace fmt

/-- The sixteen digits are digits. -/
theorem ldigits_getD_mem : ∀ i, i < 16 → ldigits.getD i '0' ∈ ldigits := by
  decide

/-- Both characters of `hexByte b` are digits of `ldigits`. -/
theorem hexByte_mem (b : Nat) : ∀ c ∈ hexByte b, c ∈ ldigits := by
  intro c hc
  simp only [hexByte, List.mem_cons, List.mem_singleton, List.not_mem_nil, or_false] at hc
  rcases hc with rfl | rfl
  · exact ldigits_getD_mem _ (Nat.mod_lt _ (by decide))
  · exact ldigits_getD_mem _ (Nat.mod_lt _ (by decide))

/-- Two digits per byte. -/
theorem SprintfHex_length (b : List Nat) : (SprintfHex b).data.length = 2 * b.length := by
  induction b with
  | nil => rfl
  | cons x xs ih =>
    simp only [SprintfHex, List.flatMap_cons, List.length_append, List.length_cons] at ih ⊢
    simp only [hexByte, List.length_cons, List.length_nil, ih]
    omega

/-- Every digit is one of `0123456789abcdef`. -/
theorem SprintfHex_mem (b : List Nat) : ∀ c ∈ (SprintfHex b).data, c ∈ ldigits := by
  intro c hc
  simp only [SprintfHex, List.mem_flatMap] at hc
  obtain ⟨x, -, hx⟩ := hc
  exact hexByte_mem x c hx

/-- The hexadecimal text of an MD5 digest is a path element. -/
theorem SprintfHex_Sum_isElement (data : List Nat) :
    path.isElement (SprintfHex (md5.Sum data)).data := by
  have hlen : (SprintfHex (md5.Sum data)).data.length = 32 := by
    rw [SprintfHex_length, md5.Sum_length]
  refine ⟨?_, ?_, ?_, ?_⟩
  · intro h; rw [h] at hlen; simp at hlen
  · intro h
    have := SprintfHex_mem _ _ h
    revert this
    decide
  · intro h; rw [h] at hlen; simp at hlen
  · intro h; rw [h] at hlen; simp at hlen

end fmt

namespace Models

open LinuxCircusTailorConfig

/-! ## Derived paths -/

/-- `BuildpackPath` on a constructed configuration: the join of the value of
`buildpacksDir` and the hexadecimal MD5 digest of the name. -/
theorem BuildpackPath_eq (B : List String) (a : OptionValues) (id : String) :
    (constructed B).BuildpackPath a.heap id
      = some (path.Join [a.buildpacksDir, fmt.SprintfHex (md5.Sum (bytes id))]) := by
  rfl

/-- The default directory `/tmp/buildpacks` is a plain directory. -/
theorem isPlainDir_default : path.isPlainDir "/tmp/buildpacks" := by
  refine ⟨["tmp", "buildpacks"], by simp, ?_, Or.inr (by decide)⟩
  intro s hs
  simp only [List.mem_cons, List.mem_singleton, List.not_mem_nil, or_false] at hs
  rcases hs with rfl | rfl <;> (unfold path.isElement; decide)

/-- C6 (counterexample).  With `buildpacksDir` set to `/tmp/buildpacks/`, the path
for `ruby` is `/tmp/buildpacks/58e5…aadf`, with a single slash: it is not the
value of `buildpacksDir` followed by `/` and 32 characters. -/
theorem BuildpackPath_not_dir_slash_hex :
    ∃ s h, NewLinuxCircusTailorConfig ["ruby"] = some (s, h) ∧
      s.BuildpackPath (override s [("buildpacksDir", "/tmp/buildpacks/")] h) "ruby"
        = some "/tmp/buildpacks/58e53d1324eef6265fdb97b08ed9aadf" ∧
      ¬ ∃ x : String, x.length = 32 ∧
        s.BuildpackPath (override s [("buildpacksDir", "/tmp/buildpacks/")] h) "ruby"
          = some ("/tmp/buildpacks/" ++ "/" ++ x) := by
  have h1 : (constructed ["ruby"]).BuildpackPath
      (override (constructed ["ruby"]) [("buildpacksDir", "/tmp/buildpacks/")]
        (defaults ["ruby"]).heap) "ruby"
      = some "/tmp/buildpacks/58e53d1324eef6265fdb97b08ed9aadf" := by
    decide!
  refine ⟨constructed ["ruby"], (defaults ["ruby"]).heap, New_eq _, h1, ?_⟩
  rintro ⟨x, hx, he⟩
  rw [h1] at he
  have hlen := congrArg String.length (Option.some.inj he)
  rw [String.length_append, hx] at hlen
  revert hlen
  decide

/-- C6 (amended).  For every value `d` of `buildpacksDir` and every buildpack
identifier, `BuildpackPath` is `path.Join(d, x)` where `x` is the hexadecimal
encoding of the 16-byte MD5 digest of the identifier, exactly 32 characters of
`0123456789abcdef`; the result always ends with `x`; and it is `d`, followed by
`/`, followed by `x` whenever `d` is a plain directory (path elements separated by
single slashes, with or without a leading slash), as the default
`/tmp/buildpacks` is. -/
theorem BuildpackPath_is_Join_of_dir_and_md5_hex (B : List String) (a : OptionValues)
    (id : String) :
    ∃ s h, NewLinuxCircusTailorConfig B = some (s, h) ∧
      ∃ x : String,
        x = fmt.SprintfHex (md5.Sum (bytes id)) ∧
        (md5.Sum (bytes id)).length = 16 ∧
        x.length = 32 ∧
        (∀ c ∈ x.data, c ∈ "0123456789abcdef".data) ∧
        s.BuildpackPath (assign s a h) id = some (path.Join [a.buildpacksDir, x]) ∧
        (∃ pre : String, s.BuildpackPath (assign s a h) id = some (pre ++ x)) ∧
        (path.isPlainDir a.buildpacksDir →
          s.BuildpackPath (assign s a h) id = some (a.buildpacksDir ++ "/" ++ x)) ∧
        s.BuildpackPath (assign s { a with buildpacksDir := "/tmp/buildpacks" } h) id
          = some ("/tmp/buildpacks" ++ "/" ++ x) := by
  have hel := fmt.SprintfHex_Sum_isElement (bytes id)
  refine ⟨constructed B, (defaults B).heap, New_eq B, _, rfl, md5.Sum_length _, ?_,
    fmt.SprintfHex_mem _, ?_, ?_, ?_, ?_⟩
  · show (fmt.SprintfHex (md5.Sum (bytes id))).data.length = 32
    rw [fmt.SprintfHex_length, md5.Sum_length]
  · rw [assign_eq, BuildpackPath_eq]
  · obtain ⟨pre, hpre⟩ := path.Join_element a.buildpacksDir
    refine ⟨String.mk pre, ?_⟩
    rw [assign_eq, BuildpackPath_eq, hpre _ hel]
    rfl
  · intro hd
    rw [assign_eq, BuildpackPath_eq, path.Join_plain _ _ hd hel]
  · rw [assign_eq, BuildpackPath_eq]
    exact congrArg some (path.Join_plain _ _ isPlainDir_default hel)

/-- C6 (witness).  The default directory with the buildpack `ruby`. -/
theorem BuildpackPath_is_Join_of_dir_and_md5_hex_witness :
    path.isPlainDir (defaults ["ruby"]).buildpacksDir ∧
    ∃ s h, NewLinuxCircusTailorConfig ["ruby"] = some (s, h) ∧
      s.BuildpackPath (assign s (defaults ["ruby"]) h) "ruby"
        = some ("/tmp/buildpacks" ++ "/" ++ fmt.SprintfHex (md5.Sum (bytes "ruby"))) := by
  refine ⟨isPlainDir_default, ?_⟩
  obtain ⟨s, h, hnew, x, hx, -, -, -, -, -, hplain, -⟩ :=
    BuildpackPath_is_Join_of_dir_and_md5_hex ["ruby"] (defaults ["ruby"]) "ruby"
  exact ⟨s, h, hnew, hx ▸ hplain isPlainDir_default⟩

/-- C9.  For every value `d` of `outputMetadataDir`, `ResultJsonDir` returns `d`
and `ResultJsonPath` is the path join of `ResultJsonDir()` and `result.json`,
which always ends with `result.json`; with `outputMetadataDir = /tmp/result` it is
`/tmp/result/result.json`. -/
theorem ResultJsonPath_is_Join_of_dir_and_result_json (B : List String) (a : OptionValues) :
    ∃ s h, NewLinuxCircusTailorConfig B = some (s, h) ∧
      s.ResultJsonDir (assign s a h) = some a.outputMetadataDir ∧
      (∃ dir, s.ResultJsonDir (assign s a h) = some dir ∧
        s.ResultJsonPath (assign s a h) = some (path.Join [dir, "result.json"])) ∧
      (∃ pre : String, s.ResultJsonPath (assign s a h) = some (pre ++ "result.json")) ∧
      s.ResultJsonPath (assign s { a with outputMetadataDir := "/tmp/result" } h)
        = some "/tmp/result/result.json" := by
  refine ⟨constructed B, (defaults B).heap, New_eq B, ?_, ⟨a.outputMetadataDir, ?_, ?_⟩, ?_, ?_⟩
  · rw [assign_eq]; rfl
  · rw [assign_eq]; rfl
  · rw [assign_eq]; rfl
  · obtain ⟨pre, hpre⟩ := path.Join_element a.outputMetadataDir
    refine ⟨String.mk pre, ?_⟩
    rw [assign_eq]
    have hel : path.isElement ("result.json" : String).data := by
      unfold path.isElement; decide
    exact congrArg some (hpre _ hel)
  · rw [assign_eq]; rfl

/-- C10.  `BuildpackPath` is deterministic, its result depending only on the value
of `buildpacksDir` and on the identifier, and for every configuration the paths of
`ruby` and `python` differ. -/
theorem BuildpackPath_ruby_ne_python (B : List String) (a b : OptionValues) :
    ∃ s h, NewLinuxCircusTailorConfig B = some (s, h) ∧
      s.BuildpackPath (assign s a h) "ruby" = s.BuildpackPath (assign s a h) "ruby" ∧
      s.BuildpackPath (assign s { b with buildpacksDir := a.buildpacksDir } h) "ruby"
        = s.BuildpackPath (assign s a h) "ruby" ∧
      (s.BuildpackPath (assign s a h) "ruby").isSome = true ∧
      s.BuildpackPath (assign s a h) "ruby" ≠ s.BuildpackPath (assign s a h) "python" := by
  refine ⟨constructed B, (defaults B).heap, New_eq B, rfl, ?_, ?_, ?_⟩
  · rw [assign_eq, assign_eq]; rfl
  · rw [assign_eq]; rfl
  · obtain ⟨pre, hpre⟩ := path.Join_element a.buildpacksDir
    rw [assign_eq, BuildpackPath_eq, BuildpackPath_eq,
      hpre _ (fmt.SprintfHex_Sum_isElement _), hpre _ (fmt.SprintfHex_Sum_isElement _)]
    intro he
    have hd := List.append_cancel_left (congrArg String.data (Option.some.inj he))
    revert hd
    decide!

end Models

namespace path

/-- Every iteration of the loop of `Clean` consumes at least one byte. -/
theorem cleanStep_length_le (rooted : Bool) (c : Char) (t out : List Char) (dd : Nat) :
    (cleanStep rooted c t out dd).1.length ≤ t.length := by
  unfold cleanStep
  split
  · exact Nat.le_refl _
  · split
    · exact Nat.le_refl _
    · split
      · split
        · simp
        · split <;> simp
      · rename_i h1 _ _
        have hpc : decide (c ≠ '/') = true := by simpa using h1
        rw [List.dropWhile_cons, if_pos hpc]
        exact length_dropWhile_le _ _

/-- The bound on the iterations of the loop of `Clean` is never reached: any two
bounds that are at least the length of the unread input give the same result. -/
theorem cleanLoop_fuel (rooted : Bool) (f1 : Nat) :
    ∀ (f2 : Nat) (rest out : List Char) (dd : Nat), rest.length ≤ f1 → rest.length ≤ f2 →
      cleanLoop rooted f1 rest out dd = cleanLoop rooted f2 rest out dd := by
  induction f1 with
  | zero =>
    intro f2 rest out dd h1 _
    have : rest = [] := List.length_eq_zero.mp (Nat.le_zero.mp h1)
    subst this
    rw [cleanLoop_nil, cleanLoop_nil]
  | succ f1 ih =>
    intro f2 rest out dd h1 h2
    cases rest with
    | nil => rw [cleanLoop_nil, cleanLoop_nil]
    | cons c t =>
      obtain ⟨g, rfl⟩ : ∃ g, f2 = g + 1 := ⟨f2 - 1, by simp at h2; omega⟩
      have hlen := cleanStep_length_le rooted c t out dd
      rw [cleanLoop_cons, cleanLoop_cons]
      exact ih g _ _ _ (by simp at h1; omega) (by simp at h2; omega)

end path

namespace strings

/-- The bound on the iterations of `genSplit` is never reached when the separator
is not empty: any two bounds
that are at least the length of the unread input give the same pieces. -/
theorem genSplit_fuel (sep : List Char) (hsep : sep ≠ []) (f1 : Nat) :
    ∀ (f2 : Nat) (rest cur : List Char), rest.length ≤ f1 → rest.length ≤ f2 →
      genSplit sep f1 rest cur = genSplit sep f2 rest cur := by
  induction f1 with
  | zero =>
    intro f2 rest cur h1 _
    have : rest = [] := List.length_eq_zero.mp (Nat.le_zero.mp h1)
    subst this
    cases f2 <;> simp [genSplit]
  | succ f1 ih =>
    intro f2 rest cur h1 h2
    cases rest with
    | nil => cases f2 <;> simp [genSplit]
    | cons c t =>
      obtain ⟨g, rfl⟩ : ∃ g, f2 = g + 1 := ⟨f2 - 1, by simp at h2; omega⟩
      simp only [genSplit]
      have ht1 : t.length ≤ f1 := by simpa using h1
      have ht2 : t.length ≤ g := by simpa using h2
      split
      · rename_i hp
        cases sep with
        | nil => exact absurd rfl hsep
        | cons s ss =>
          have hd : ((c :: t).drop (s :: ss).length).length ≤ t.length := by
            simp
          rw [ih g _ _ (hd.trans ht1) (hd.trans ht2)]
      · exact ih g _ _ ht1 ht2

end strings

namespace Models

/-- No byte sequence is below itself. -/
theorem bytesLess_irrefl (a : List Nat) : bytesLess a a = false := by
  induction a with
  | nil => rfl
  | cons x xs ih => simp [bytesLess, ih]

/-- Two byte sequences are equal or one is below the other. -/
theorem bytesLess_trichotomy (a : List Nat) :
    ∀ b, bytesLess a b = true ∨ a = b ∨ bytesLess b a = true := by
  induction a with
  | nil =>
    intro b
    cases b with
    | nil => exact Or.inr (Or.inl rfl)
    | cons y ys => exact Or.inl rfl
  | cons x xs ih =>
    intro b
    cases b with
    | nil => exact Or.inr (Or.inr rfl)
    | cons y ys =>
      rcases Nat.lt_trichotomy x y with h | h | h
      · exact Or.inl (by simp [bytesLess, h])
      · subst h
        rcases ih ys with h' | h' | h'
        · exact Or.inl (by simp [bytesLess, h'])
        · exact Or.inr (Or.inl (by rw [h']))
        · exact Or.inr (Or.inr (by simp [bytesLess, h']))
      · exact Or.inr (Or.inr (by simp [bytesLess, h]))

/-- The order on byte sequences is transitive. -/
theorem bytesLess_trans (a : List Nat) :
    ∀ b c, bytesLess a b = true → bytesLess b c = true → bytesLess a c = true := by
  induction a with
  | nil =>
    intro b c hab hbc
    cases b with
    | nil => simp [bytesLess] at hab
    | cons y ys =>
      cases c with
      | nil => simp [bytesLess] at hbc
      | cons z zs => rfl
  | cons x xs ih =>
    intro b c hab hbc
    cases b with
    | nil => simp [bytesLess] at hab
    | cons y ys =>
      cases c with
      | nil => simp [bytesLess] at hbc
      | cons z zs =>
        simp only [bytesLess] at hab hbc ⊢
        by_cases hxy : x < y
        · by_cases hyz : y < z
          · simp [Nat.lt_trans hxy hyz]
          · by_cases hzy : z < y
            · simp [hyz, hzy] at hbc
            · have : y = z := by omega
              subst this
              simp [hxy]
        · by_cases hyx : y < x
          · simp [hxy, hyx] at hab
          · have hxy' : x = y := by omega
            subst hxy'
            simp only [Nat.lt_irrefl, ↓reduceIte] at hab
            by_cases hxz : x < z
            · simp [hxz]
            · by_cases hzx : z < x
              · simp [hxz, hzx] at hbc
              · simp only [hxz, hzx, ↓reduceIte] at hbc ⊢
                exact ih _ _ hab hbc

end Models

namespace sort

open Models

/-- The elements of `insert x l` are `x` and the elements of `l`. -/
theorem insert_perm (x : String) (l : List String) : (insert x l).Perm (x :: l) := by
  induction l with
  | nil => exact List.Perm.refl _
  | cons y ys ih =>
    unfold insert
    split
    · exact (List.Perm.cons y ih).trans (List.Perm.swap x y ys)
    · exact List.Perm.refl _

/-- Inserting into a non-decreasing list gives a non-decreasing list. -/
theorem insert_sorted (x : String) (l : List String)
    (hl : l.Pairwise fun a b => stringLess b a = false) :
    (insert x l).Pairwise fun a b => stringLess b a = false := by
  induction l with
  | nil => simp [insert]
  | cons y ys ih =>
    rw [List.pairwise_cons] at hl
    unfold insert
    split
    · rename_i hyx
      rw [List.pairwise_cons]
      refine ⟨fun z hz => ?_, ih hl.2⟩
      rcases (List.mem_cons.mp ((insert_perm x ys).mem_iff.mp hz)) with rfl | hz
      · cases hzy : stringLess z y with
        | false => rfl
        | true =>
          have h := bytesLess_trans _ _ _ hzy hyx
          rw [bytesLess_irrefl] at h
          exact absurd h (by simp)
      · exact hl.1 z hz
    · rename_i hyx
      have hyx' : bytesLess (bytes y) (bytes x) = false := by simpa [stringLess] using hyx
      rw [List.pairwise_cons]
      refine ⟨fun z hz => ?_, List.pairwise_cons.mpr hl⟩
      rcases List.mem_cons.mp hz with rfl | hz
      · exact hyx'
      · have hzy : bytesLess (bytes z) (bytes y) = false := hl.1 z hz
        cases hzx : stringLess z x with
        | false => rfl
        | true =>
          have hzx' : bytesLess (bytes z) (bytes x) = true := hzx
          rcases bytesLess_trichotomy (bytes x) (bytes y) with h | h | h
          · have h' := bytesLess_trans _ _ _ hzx' h
            rw [hzy] at h'
            exact absurd h' (by simp)
          · rw [h, hzy] at hzx'
            exact absurd hzx' (by simp)
          · rw [hyx'] at h
            exact absurd h (by simp)

/-- The model of `sort.Strings` returns a rearrangement of its input in
non-decreasing byte order. -/
theorem Strings_sorted_perm (l : List String) :
    (Strings l).Perm l ∧ (Strings l).Pairwise fun a b => stringLess b a = false := by
  induction l with
  | nil => exact ⟨List.Perm.refl _, List.Pairwise.nil⟩
  | cons x xs ih =>
    exact ⟨(insert_perm x _).trans (List.Perm.cons x ih.1), insert_sorted x _ ih.2⟩

end sort

namespace Models

open LinuxCircusTailorConfig

/-! ## The compiler path and the shape of Script -/

/-- `Join` with a single space written as a concatenation: every element after
the first is preceded by one space. -/
theorem Join_space_eq (x : String) (xs : List String) :
    strings.Join (x :: xs) " " = x ++ String.join (xs.map fun t => " " ++ t) := by
  induction xs generalizing x with
  | nil => simp [strings.Join, String.join]
  | cons y ys ih =>
    rw [strings.Join_cons_of_ne_nil _ _ _ (by simp), ih y]
    apply String.ext
    simp [String.join_eq, String.data_append]

/-- C11.  The compiler path is fixed and cannot be overridden: for every buildpack
list and every sequence of overrides (in particular every assignment of values to
the six options), `CompilerPath` returns `/tmp/compiler` and `Script` begins with
`/tmp/compiler/run`; the flag set has no flag called `compilerPath`, so `Set`
rejects it and leaves the heap as it was. -/
theorem CompilerPath_is_fixed (B : List String) (a : OptionValues)
    (ops : List (String × String)) (v : String) :
    ∃ s h, NewLinuxCircusTailorConfig B = some (s, h) ∧
      s.CompilerPath = "/tmp/compiler" ∧
      s.compilerCommand = "/tmp/compiler/run" ∧
      (∃ rest : String, s.Script (assign s a h) = some ("/tmp/compiler/run" ++ rest)) ∧
      (∃ rest : String, s.Script (override s ops h) = some ("/tmp/compiler/run" ++ rest)) ∧
      s.FlagSet.Set "compilerPath" v (override s ops h)
        = (some "no such flag -compilerPath", override s ops h) := by
  refine ⟨constructed B, (defaults B).heap, New_eq B, rfl, rfl, ?_, ?_, rfl⟩
  · rw [assign_eq, Script_eq, Join_space_eq]
    exact ⟨_, rfl⟩
  · obtain ⟨b, hb⟩ := override_eq_heap B ops (defaults B)
    rw [hb, Script_eq, Join_space_eq]
    exact ⟨_, rfl⟩

/-- C12.  `Script` performs no escaping and emits one token per option: there is
one ordering of the six option names (their increasing byte order) such that for
every value assignment `Script` is `/tmp/compiler/run` followed, for each option
in that ordering, by a space and `-name='value'` with the value inserted as it
is; a value holding single quotes and spaces appears unchanged in the output. -/
theorem Script_inserts_values_verbatim :
    ∃ order : List String, order.Perm definitionOrder ∧
      (∀ (B : List String) (a : OptionValues),
        ∃ s h, NewLinuxCircusTailorConfig B = some (s, h) ∧
          s.Script (assign s a h)
            = some ("/tmp/compiler/run"
                ++ String.join (order.map fun n => " " ++ ("-" ++ n ++ "='" ++ a.get n ++ "'")))) ∧
      (∃ s h, NewLinuxCircusTailorConfig ["ruby"] = some (s, h) ∧
        s.Script (override s [("appDir", "it's a 'dir'")] h)
          = some "/tmp/compiler/run -appDir='it's a 'dir'' -buildArtifactsCacheDir='/tmp/cache' -buildpackOrder='ruby' -buildpacksDir='/tmp/buildpacks' -outputDropletDir='/tmp/droplet' -outputMetadataDir='/tmp/result'") := by
  refine ⟨sortedOrder, by decide, fun B a => ⟨constructed B, (defaults B).heap, New_eq B, ?_⟩,
    constructed ["ruby"], (defaults ["ruby"]).heap, New_eq _, by decide!⟩
  rw [assign_eq, Script_eq, Join_space_eq, List.map_map]
  rfl

/-- C13.  `Script` is total on constructed configurations: after any sequence of
overrides, every flag that `VisitAll` visits has an entry in `values` whose cell
is allocated, so `Script` does not panic on a nil cell and the early return of the
closure of `Validate` is not taken; both methods return. -/
theorem Script_total_on_constructed (B : List String) (ops : List (String × String)) :
    ∃ s h, NewLinuxCircusTailorConfig B = some (s, h) ∧
      (∀ f ∈ flag.sortFlags s.FlagSet.formal,
        ∃ p, s.values.lookup f.Name = some p ∧ ∃ v, (override s ops h).load p = some v) ∧
      (s.Script (override s ops h)).isSome = true ∧
      (s.Validate (override s ops h)).isSome = true := by
  obtain ⟨b, hb⟩ := override_eq_heap B ops (defaults B)
  refine ⟨constructed B, (defaults B).heap, New_eq B, ?_, ?_, ?_⟩
  · intro f hf
    have hn : f.Name ∈ sortedOrder := by
      rw [← sortFlags_names B]; exact List.mem_map_of_mem _ hf
    have hv := valueOf_constructed B b f.Name hn
    rw [hb]
    unfold valueOf at hv
    cases hl : (constructed B).values.lookup f.Name with
    | none => rw [hl] at hv; simp at hv
    | some p =>
      rw [hl] at hv
      exact ⟨p, rfl, b.get f.Name, hv⟩
  · rw [hb, Script_eq]; rfl
  · rw [hb, Validate_eq]; rfl

end Models

namespace strings

/-! ## Join and Split are inverse on comma-free pieces -/

/-- The model of `strings.Join` is the library's `String.intercalate`. -/
theorem Join_eq_intercalate (l : List String) (sep : String) :
    Join l sep = sep.intercalate l := by
  cases l with
  | nil => rfl
  | cons x xs =>
    induction xs generalizing x with
    | nil => rfl
    | cons y ys ih =>
      rw [Join_cons_of_ne_nil _ _ _ (by simp), ih y]
      simp only [String.intercalate, String.intercalate.go]
      have hgo : ∀ (acc : String) (zs : List String),
          String.intercalate.go acc sep zs = acc ++ String.intercalate.go "" sep zs := by
        intro acc zs
        induction zs generalizing acc with
        | nil => simp [String.intercalate.go]
        | cons z zs ihz =>
          simp only [String.intercalate.go]
          rw [ihz (acc ++ sep ++ z), ihz ("" ++ sep ++ z)]
          apply String.ext
          simp [String.data_append]
      rw [hgo (x ++ sep ++ y), hgo y]
      apply String.ext
      simp [String.data_append]

/-- The loop of `genSplit` on a comma-free input returns it as the last piece. -/
theorem genSplit_comma_last (fuel : Nat) (x cur : List Char) (hf : x.length ≤ fuel)
    (hx : ',' ∉ x) : genSplit [','] fuel x cur = [String.mk (cur ++ x)] := by
  induction fuel generalizing x cur with
  | zero => simp [genSplit]
  | succ fuel ih =>
    cases x with
    | nil => simp [genSplit]
    | cons c t =>
      have hc : c ≠ ',' := fun e => hx (e ▸ List.mem_cons_self _ _)
      have hp : ([','].isPrefixOf (c :: t)) = false := by
        simp [List.isPrefixOf, Ne.symm hc]
      rw [genSplit]
      simp only [hp, Bool.false_eq_true, ↓reduceIte]
      rw [ih t _ (by simpa using hf) (fun h => hx (List.mem_cons_of_mem _ h))]
      simp

/-- The loop of `genSplit` on a comma-free piece followed by a comma cuts the
piece off and goes on with the rest. -/
theorem genSplit_comma_piece (fuel : Nat) (x r cur : List Char)
    (hf : (x ++ ',' :: r).length ≤ fuel) (hx : ',' ∉ x) :
    genSplit [','] fuel (x ++ ',' :: r) cur
      = String.mk (cur ++ x) :: genSplit [','] (fuel - x.length - 1) r [] := by
  induction fuel generalizing x cur with
  | zero => simp at hf
  | succ fuel ih =>
    cases x with
    | nil =>
      rw [List.nil_append, genSplit]
      simp [List.isPrefixOf]
    | cons c t =>
      have hc : c ≠ ',' := fun e => hx (e ▸ List.mem_cons_self _ _)
      have hp : ([','].isPrefixOf (c :: (t ++ ',' :: r))) = false := by
        simp [List.isPrefixOf, Ne.symm hc]
      rw [List.cons_append, genSplit]
      simp only [hp, Bool.false_eq_true, ↓reduceIte]
      rw [ih t _ (by simpa using hf) (fun h => hx (List.mem_cons_of_mem _ h))]
      simp

/-- Splitting the comma-join of a non-empty list of comma-free strings gives the
list back. -/
theorem Split_Join_comma (B : List String) (hne : B ≠ []) (hB : ∀ b ∈ B, ',' ∉ b.data) :
    Split (Join B ",") "," = B := by
  have hsep : ("," : String) ≠ "" := by decide
  unfold Split
  rw [if_neg hsep]
  have hd : (",": String).data = [','] := rfl
  rw [hd]
  suffices h : ∀ (B : List String), B ≠ [] → (∀ b ∈ B, ',' ∉ b.data) →
      ∀ fuel, (Join B ",").data.length ≤ fuel →
        genSplit [','] fuel (Join B ",").data [] = B from
    h B hne hB _ (Nat.le_refl _)
  intro B
  induction B with
  | nil => intro h; exact absurd rfl h
  | cons b bs ih =>
    intro _ hB fuel hf
    cases bs with
    | nil =>
      have hj : (Join [b] ",").data = b.data := rfl
      rw [hj] at hf ⊢
      rw [genSplit_comma_last _ _ _ hf (hB b (List.mem_cons_self _ _))]
      rfl
    | cons c cs =>
      have hj : (Join (b :: c :: cs) ",").data = b.data ++ ',' :: (Join (c :: cs) ",").data := by
        simp [Join, String.data_append]
      rw [hj] at hf ⊢
      rw [genSplit_comma_piece _ _ _ _ hf (hB b (List.mem_cons_self _ _)),
        ih (by simp) (fun x hx => hB x (List.mem_cons_of_mem _ hx)) _ (by simp at hf ⊢; omega)]
      rfl

end strings

namespace Models

open LinuxCircusTailorConfig

/-! ## The error message, the round trip and fresh configurations -/

/-- C14.  When some option is empty, the `Validate` error message is exactly
`missing flags: ` followed by the hyphen-prefixed names of the empty options
joined with a comma and a space; with only `appDir` and `buildpackOrder` empty it
is `missing flags: -appDir, -buildpackOrder`. -/
theorem Validate_error_message_format (B : List String) (a : OptionValues)
    (hS : ∃ n ∈ definitionOrder, a.get n = "") :
    (∃ s h, NewLinuxCircusTailorConfig B = some (s, h) ∧
      s.Validate (assign s a h)
        = some (some ("missing flags: " ++ ", ".intercalate
            ((sortedOrder.filter fun n => a.get n = "").map fun n => "-" ++ n)))) ∧
    (∃ s h, NewLinuxCircusTailorConfig ["ruby"] = some (s, h) ∧
      s.Validate (override s [("appDir", ""), ("buildpackOrder", "")] h)
        = some (some "missing flags: -appDir, -buildpackOrder")) := by
  refine ⟨⟨constructed B, (defaults B).heap, New_eq B, ?_⟩,
    constructed ["ruby"], (defaults ["ruby"]).heap, New_eq _, by decide!⟩
  rw [assign_eq, Validate_eq]
  obtain ⟨n, hn, hv⟩ := hS
  have hmem : n ∈ sortedOrder.filter (fun n => a.get n = "") :=
    List.mem_filter.mpr ⟨(mem_sortedOrder_iff n).mpr hn, by simpa using hv⟩
  have hpos : 0 < (missing a).length := by
    rw [missing, List.length_map]
    exact List.length_pos_of_mem hmem
  rw [if_pos hpos, strings.Join_eq_intercalate]
  rfl

/-- C14 (witness).  The buildpack list `["ruby"]` with `appDir` and
`buildpackOrder` emptied. -/
theorem Validate_error_message_format_witness :
    (∃ n ∈ definitionOrder,
        ({ defaults ["ruby"] with appDir := "", buildpackOrder := "" } : OptionValues).get n = "") ∧
    ∃ s h, NewLinuxCircusTailorConfig ["ruby"] = some (s, h) ∧
      s.Validate (assign s { defaults ["ruby"] with appDir := "", buildpackOrder := "" } h)
        = some (some ("missing flags: " ++ ", ".intercalate
            ((sortedOrder.filter fun n =>
              ({ defaults ["ruby"] with appDir := "", buildpackOrder := "" } : OptionValues).get n
                = "").map fun n => "-" ++ n))) :=
  ⟨⟨"buildpackOrder", by decide, by decide⟩,
   (Validate_error_message_format ["ruby"]
     { defaults ["ruby"] with appDir := "", buildpackOrder := "" }
     ⟨"buildpackOrder", by decide, by decide⟩).1⟩

/-- C15.  Construction followed by `BuildpackOrder` is a round trip: for a
non-empty buildpack list in which no identifier holds a comma, `BuildpackOrder`
on the constructed configuration returns the list; for the empty list it returns
`[""]`. -/
theorem BuildpackOrder_round_trip (B : List String) (hne : B ≠ [])
    (hB : ∀ b ∈ B, ',' ∉ b.data) :
    (∃ s h, NewLinuxCircusTailorConfig B = some (s, h) ∧ s.BuildpackOrder h = some B) ∧
    (∃ s h, NewLinuxCircusTailorConfig [] = some (s, h) ∧ s.BuildpackOrder h = some [""]) := by
  refine ⟨⟨constructed B, (defaults B).heap, New_eq B, ?_⟩,
    constructed [], (defaults []).heap, New_eq _, by decide⟩
  exact congrArg some (strings.Split_Join_comma B hne hB)

/-- C15 (witness).  The buildpack list `["ruby", "python", "go"]`. -/
theorem BuildpackOrder_round_trip_witness :
    (["ruby", "python", "go"] : List String) ≠ [] ∧
    (∀ b ∈ (["ruby", "python", "go"] : List String), ',' ∉ b.data) ∧
    ∃ s h, NewLinuxCircusTailorConfig ["ruby", "python", "go"] = some (s, h) ∧
      s.BuildpackOrder h = some ["ruby", "python", "go"] :=
  ⟨by decide, by decide,
   (BuildpackOrder_round_trip ["ruby", "python", "go"] (by decide) (by decide)).1⟩

/-- The options reported missing by a fresh configuration. -/
theorem missing_defaults (B : List String) :
    missing (defaults B) = if strings.Join B "," = "" then ["-buildpackOrder"] else [] := by
  have h1 : ("/app" : String) ≠ "" := by decide
  have h2 : ("/tmp/droplet" : String) ≠ "" := by decide
  have h3 : ("/tmp/result" : String) ≠ "" := by decide
  have h4 : ("/tmp/buildpacks" : String) ≠ "" := by decide
  have h5 : ("/tmp/cache" : String) ≠ "" := by decide
  by_cases hj : strings.Join B "," = "" <;>
    simp [missing, sortedOrder, OptionValues.get, defaults, List.filter, hj, h1, h2, h3, h4, h5]

/-- C17.  A freshly constructed configuration passes validation exactly when the
comma-join of its buildpack list is not empty; otherwise, as for the empty list
and for `[""]`, `Validate` fails naming only `-buildpackOrder`. -/
theorem Validate_fresh_iff_buildpacks_nonempty (B : List String) :
    (∃ s h, NewLinuxCircusTailorConfig B = some (s, h) ∧
      (s.Validate h = some none ↔ strings.Join B "," ≠ "") ∧
      s.Validate h
        = if strings.Join B "," = "" then some (some "missing flags: -buildpackOrder")
          else some none) ∧
    (∃ s h, NewLinuxCircusTailorConfig [] = some (s, h) ∧
      s.Validate h = some (some "missing flags: -buildpackOrder")) ∧
    (∃ s h, NewLinuxCircusTailorConfig [""] = some (s, h) ∧
      s.Validate h = some (some "missing flags: -buildpackOrder")) := by
  have hV : (constructed B).Validate (defaults B).heap
      = if strings.Join B "," = "" then some (some "missing flags: -buildpackOrder")
        else some none := by
    rw [Validate_eq, missing_defaults]
    by_cases hj : strings.Join B "," = ""
    · rw [if_pos hj, if_pos hj]; rfl
    · rw [if_neg hj, if_neg hj]; rfl
  refine ⟨⟨constructed B, (defaults B).heap, New_eq B, ?_, hV⟩,
    ⟨constructed [], (defaults []).heap, New_eq _, by decide⟩,
    ⟨constructed [""], (defaults [""]).heap, New_eq _, by decide⟩⟩
  rw [hV]
  by_cases hj : strings.Join B "," = ""
  · simp [hj]
  · simp [hj]

end Models

namespace Models

open LinuxCircusTailorConfig

/-! ## Injectivity of Script -/

/-- Two lists that agree up to their first `q` have the same part before it and
the same part after it. -/
theorem eq_of_append_cons_eq (q : Char) (x : List Char) :
    ∀ (x' r r' : List Char), q ∉ x → q ∉ x' → x ++ q :: r = x' ++ q :: r' →
      x = x' ∧ r = r' := by
  induction x with
  | nil =>
    intro x' r r' _ hx' h
    cases x' with
    | nil => exact ⟨rfl, by simpa using h⟩
    | cons c t =>
      have hc : q = c := by simpa using (List.cons.inj h).1
      exact absurd (hc ▸ List.mem_cons_self _ _) hx'
  | cons c t ih =>
    intro x' r r' hx hx' h
    cases x' with
    | nil =>
      have hc : c = q := by simpa using (List.cons.inj h).1
      exact absurd (hc ▸ List.mem_cons_self _ _) hx
    | cons c' t' =>
      have h' := List.cons.inj h
      obtain ⟨ht, hr⟩ := ih t' r r' (fun m => hx (List.mem_cons_of_mem _ m))
        (fun m => hx' (List.mem_cons_of_mem _ m)) h'.2
      exact ⟨by rw [h'.1, ht], hr⟩

/-- The characters of the output of `Script`: fixed texts alternating with the
six values, each value followed by a single quote. -/
theorem Script_data (a : OptionValues) :
    (strings.Join ("/tmp/compiler/run" :: sortedOrder.map (token a)) " ").data
      = "/tmp/compiler/run -appDir='".data ++ (a.appDir.data ++ quote ::
        (" -buildArtifactsCacheDir='".data ++ (a.buildArtifactsCacheDir.data ++ quote ::
        (" -buildpackOrder='".data ++ (a.buildpackOrder.data ++ quote ::
        (" -buildpacksDir='".data ++ (a.buildpacksDir.data ++ quote ::
        (" -outputDropletDir='".data ++ (a.outputDropletDir.data ++ quote ::
        (" -outputMetadataDir='".data ++ (a.outputMetadataDir.data ++ [quote]))))))))))) := by
  rw [Script_explicit]
  simp [String.data_append, quote]

/-- Quote-free assignments with the same `Script` text are equal. -/
theorem eq_of_Script_text_eq (a b : OptionValues) (ha : a.quoteFree) (hb : b.quoteFree)
    (h : strings.Join ("/tmp/compiler/run" :: sortedOrder.map (token a)) " "
      = strings.Join ("/tmp/compiler/run" :: sortedOrder.map (token b)) " ") : a = b := by
  have hd := congrArg String.data h
  rw [Script_data, Script_data] at hd
  obtain ⟨ha1, ha2, ha3, ha4, ha5, ha6⟩ := ha
  obtain ⟨hb1, hb2, hb3, hb4, hb5, hb6⟩ := hb
  obtain ⟨e1, hd⟩ := eq_of_append_cons_eq quote _ _ _ _ ha1 hb1 (List.append_cancel_left hd)
  obtain ⟨e5, hd⟩ := eq_of_append_cons_eq quote _ _ _ _ ha5 hb5 (List.append_cancel_left hd)
  obtain ⟨e6, hd⟩ := eq_of_append_cons_eq quote _ _ _ _ ha6 hb6 (List.append_cancel_left hd)
  obtain ⟨e4, hd⟩ := eq_of_append_cons_eq quote _ _ _ _ ha4 hb4 (List.append_cancel_left hd)
  obtain ⟨e2, hd⟩ := eq_of_append_cons_eq quote _ _ _ _ ha2 hb2 (List.append_cancel_left hd)
  obtain ⟨e3, -⟩ := eq_of_append_cons_eq quote _ _ [] [] ha3 hb3 (List.append_cancel_left hd)
  obtain ⟨a1, a2, a3, a4, a5, a6⟩ := a
  obtain ⟨b1, b2, b3, b4, b5, b6⟩ := b
  simp only [OptionValues.mk.injEq]
  exact ⟨String.ext e1, String.ext e2, String.ext e3, String.ext e4, String.ext e5,
    String.ext e6⟩

/-- C16.  `Script` is injective on quote-free values: two assignments in which no
value holds a single quote and whose `Script` outputs are equal give the same
value to all six options.  Without the precondition this fails: two different
assignments, one with a quote in `appDir` and one with a quote in
`buildArtifactsCacheDir`, have the same output. -/
theorem Script_injective_on_quote_free (B : List String) (a b : OptionValues)
    (ha : a.quoteFree) (hb : b.quoteFree) :
    (∃ s h, NewLinuxCircusTailorConfig B = some (s, h) ∧
      (s.Script (assign s a h) = s.Script (assign s b h) → a = b)) ∧
    (∃ s h, NewLinuxCircusTailorConfig ["ruby"] = some (s, h) ∧
      ({ defaults ["ruby"] with
          appDir := "x' -buildArtifactsCacheDir='y", buildArtifactsCacheDir := "z" }
        : OptionValues)
        ≠ { defaults ["ruby"] with
          appDir := "x", buildArtifactsCacheDir := "y' -buildArtifactsCacheDir='z" } ∧
      s.Script (assign s { defaults ["ruby"] with
          appDir := "x' -buildArtifactsCacheDir='y", buildArtifactsCacheDir := "z" } h)
        = s.Script (assign s { defaults ["ruby"] with
          appDir := "x", buildArtifactsCacheDir := "y' -buildArtifactsCacheDir='z" } h)) := by
  refine ⟨⟨constructed B, (defaults B).heap, New_eq B, fun h => ?_⟩,
    constructed ["ruby"], (defaults ["ruby"]).heap, New_eq _, by decide, by decide!⟩
  rw [assign_eq, assign_eq, Script_eq, Script_eq] at h
  exact eq_of_Script_text_eq a b ha hb (Option.some.inj h)

/-- C16 (witness).  The defaults for `["ruby"]`, compared with themselves: the
values are quote-free and the outputs are equal. -/
theorem Script_injective_on_quote_free_witness :
    (defaults ["ruby"]).quoteFree ∧
    ∃ s h, NewLinuxCircusTailorConfig ["ruby"] = some (s, h) ∧
      s.Script (assign s (defaults ["ruby"]) h) = s.Script (assign s (defaults ["ruby"]) h) ∧
      defaults ["ruby"] = defaults ["ruby"] := by
  have h1 : (defaults ["ruby"]).quoteFree := by unfold OptionValues.quoteFree; decide
  obtain ⟨s, h, hnew, himp⟩ :=
    (Script_injective_on_quote_free ["ruby"] (defaults ["ruby"]) (defaults ["ruby"]) h1 h1).1
  exact ⟨h1, s, h, hnew, rfl, himp rfl⟩

end Models

namespace Models

open LinuxCircusTailorConfig

/-! ## The typed accessors and the name-indexed store -/

/-- C18.  The typed accessors and the name-indexed store never disagree: after
any sequence of overrides of a constructed configuration there are six values such
that each of `AppDir`, `OutputDropletDir`, `ResultJsonDir`, `BuildpacksDir` and
`BuildArtifactsCacheDir` returns the value that `values` holds under the name of
its option, `BuildpackOrder` is the split of the value held under
`buildpackOrder`, `Script` serializes these six values and `Validate` accepts
exactly when none of them is empty. -/
theorem accessors_agree_with_values (B : List String) (ops : List (String × String)) :
    ∃ s h, NewLinuxCircusTailorConfig B = some (s, h) ∧
      ∃ v : OptionValues,
        s.AppDir (override s ops h) = some v.appDir ∧
        s.valueOf (override s ops h) "appDir" = some v.appDir ∧
        s.OutputDropletDir (override s ops h) = some v.outputDropletDir ∧
        s.valueOf (override s ops h) "outputDropletDir" = some v.outputDropletDir ∧
        s.ResultJsonDir (override s ops h) = some v.outputMetadataDir ∧
        s.valueOf (override s ops h) "outputMetadataDir" = some v.outputMetadataDir ∧
        s.BuildpacksDir (override s ops h) = some v.buildpacksDir ∧
        s.valueOf (override s ops h) "buildpacksDir" = some v.buildpacksDir ∧
        s.BuildArtifactsCacheDir (override s ops h) = some v.buildArtifactsCacheDir ∧
        s.valueOf (override s ops h) "buildArtifactsCacheDir" = some v.buildArtifactsCacheDir ∧
        s.BuildpackOrder (override s ops h) = some (strings.Split v.buildpackOrder ",") ∧
        s.valueOf (override s ops h) "buildpackOrder" = some v.buildpackOrder ∧
        s.Script (override s ops h)
          = some ("/tmp/compiler/run -appDir='" ++ v.appDir
              ++ "' -buildArtifactsCacheDir='" ++ v.buildArtifactsCacheDir
              ++ "' -buildpackOrder='" ++ v.buildpackOrder
              ++ "' -buildpacksDir='" ++ v.buildpacksDir
              ++ "' -outputDropletDir='" ++ v.outputDropletDir
              ++ "' -outputMetadataDir='" ++ v.outputMetadataDir ++ "'") ∧
        (s.Validate (override s ops h) = some none ↔
          v.appDir ≠ "" ∧ v.outputDropletDir ≠ "" ∧ v.outputMetadataDir ≠ "" ∧
          v.buildpacksDir ≠ "" ∧ v.buildArtifactsCacheDir ≠ "" ∧ v.buildpackOrder ≠ "") := by
  obtain ⟨b, hb⟩ := override_eq_heap B ops (defaults B)
  refine ⟨constructed B, (defaults B).heap, New_eq B, b, ?_⟩
  rw [hb]
  refine ⟨rfl, rfl, rfl, rfl, rfl, rfl, rfl, rfl, rfl, rfl, rfl, rfl, ?_, ?_⟩
  · rw [Script_eq, Script_explicit]
  · rw [Validate_eq, ← missing_eq_nil_iff]
    cases hm : missing b with
    | nil => simp
    | cons x xs => simp

end Models
